import Mathlib

/-!
# FLOAM `lidarOptimization.cpp`: residuals, analytic Jacobians and the SE(3) retraction

A shallow embedding of `src/lidarOptimization.cpp`.  Scalars are taken from an
arbitrary linearly ordered field `α` (the theorems about derivatives and
distances specialise to `ℝ`); the three C maths routines the source calls
(`sqrt`, behind Eigen's `norm()`, and `sin`, `cos`) are passed in as a record,
so every definition can be run on rationals.

Buffers are total functions on `Fin n`; the Eigen operations the source uses
(`cross`, `dot`, `norm`, quaternion product, quaternion acting on a vector,
`Quaternion::matrix()`) are written out coefficient by coefficient.
-/

set_option maxHeartbeats 1000000

namespace Floam

variable {α : Type}

/-- The scalar routines of the C maths library that the source calls. -/
structure Libm (α : Type) where
  /-- Square root, used by `norm()`. -/
  sqrt : α → α
  /-- Sine. -/
  sin : α → α
  /-- Cosine. -/
  cos : α → α

/-- Three-component column vector `Eigen::Vector3d`. -/
abbrev Vector3d (α : Type) := Fin 3 → α

/-- Three by three matrix `Eigen::Matrix3d`. -/
abbrev Matrix3d (α : Type) := Matrix (Fin 3) (Fin 3) α

/-- Eigen quaternion; the coefficients are stored in the order `x, y, z, w`. -/
structure Quaterniond (α : Type) where
  /-- First imaginary coefficient. -/
  x : α
  /-- Second imaginary coefficient. -/
  y : α
  /-- Third imaginary coefficient. -/
  z : α
  /-- Real coefficient. -/
  w : α

section Eigen

variable [LinearOrderedField α]

/-- Eigen `a.cross(b)`. -/
def cross (a b : Vector3d α) : Vector3d α :=
  ![a 1 * b 2 - a 2 * b 1, a 2 * b 0 - a 0 * b 2, a 0 * b 1 - a 1 * b 0]

/-- Eigen `a.dot(b)`. -/
def dot (a b : Vector3d α) : α :=
  a 0 * b 0 + a 1 * b 1 + a 2 * b 2

/-- Eigen `v.norm()`: the square root of the sum of the squared coefficients. -/
def norm (L : Libm α) (v : Vector3d α) : α :=
  L.sqrt (dot v v)

/-- Constructor `Eigen::Quaterniond(w, x, y, z)`. -/
def Quaterniond.ofWXYZ (w x y z : α) : Quaterniond α :=
  { x := x, y := y, z := z, w := w }

/-- View `Eigen::Map<const Eigen::Quaterniond>(p)` of the first four scalars of a pose buffer. -/
def Quaterniond.map (p : Fin 7 → α) : Quaterniond α :=
  { x := p 0, y := p 1, z := p 2, w := p 3 }

/-- View `Eigen::Map<const Eigen::Vector3d>(p + 4)` of the last three scalars of a pose buffer. -/
def translationMap (p : Fin 7 → α) : Vector3d α :=
  ![p 4, p 5, p 6]

/-- Imaginary part `q.vec()`. -/
def Quaterniond.vec (q : Quaterniond α) : Vector3d α :=
  ![q.x, q.y, q.z]

/-- Squared norm of a quaternion; a unit quaternion has squared norm one. -/
def Quaterniond.squaredNorm (q : Quaterniond α) : α :=
  q.x * q.x + q.y * q.y + q.z * q.z + q.w * q.w

/-- Eigen quaternion product `a * b`. -/
def Quaterniond.mul (a b : Quaterniond α) : Quaterniond α :=
  Quaterniond.ofWXYZ
    (a.w * b.w - a.x * b.x - a.y * b.y - a.z * b.z)
    (a.w * b.x + a.x * b.w + a.y * b.z - a.z * b.y)
    (a.w * b.y + a.y * b.w + a.z * b.x - a.x * b.z)
    (a.w * b.z + a.z * b.w + a.x * b.y - a.y * b.x)

/-- Eigen `q * v` for a quaternion and a vector (`_transformVector`):
`uv = q.vec().cross(v); uv += uv; return v + q.w() * uv + q.vec().cross(uv)`. -/
def Quaterniond.transformVector (q : Quaterniond α) (v : Vector3d α) : Vector3d α :=
  let uv := cross q.vec v
  let uv := uv + uv
  v + q.w • uv + cross q.vec uv

/-- Eigen `q.matrix()` (`toRotationMatrix`). -/
def Quaterniond.matrix (q : Quaterniond α) : Matrix3d α :=
  let tx := 2 * q.x
  let ty := 2 * q.y
  let tz := 2 * q.z
  let twx := tx * q.w
  let twy := ty * q.w
  let twz := tz * q.w
  let txx := tx * q.x
  let txy := ty * q.x
  let txz := tz * q.x
  let tyy := ty * q.y
  let tyz := tz * q.y
  let tzz := tz * q.z
  !![1 - (tyy + tzz), txy - twz, txz + twy;
     txy + twz, 1 - (txx + tzz), tyz - twx;
     txz - twy, tyz + twx, 1 - (txx + tyy)]

/-- Assignment `m.block<3,3>(0, c) = b` on a three by six matrix. -/
def setBlock33 (m : Matrix (Fin 3) (Fin 6) α) (c : Nat) (b : Matrix3d α) :
    Matrix (Fin 3) (Fin 6) α :=
  fun i j => if h : c ≤ j.val ∧ j.val < c + 3 then b i ⟨j.val - c, by omega⟩ else m i j

/-- Assignment `J.block<1,6>(0,0) = r` on a row of seven scalars. -/
def setBlock16 (J : Fin 7 → α) (r : Fin 6 → α) : Fin 7 → α :=
  fun k => if h : k.val < 6 then r ⟨k.val, h⟩ else J k

end Eigen

section Source

variable [LinearOrderedField α]

/-- Source `skew`: the matrix is zeroed and six entries are then assigned. -/
def skew (mat_in : Vector3d α) : Matrix3d α :=
  let skew_mat : Matrix3d α := 0
  let skew_mat := skew_mat.updateRow 0 (Function.update (skew_mat 0) 1 (-mat_in 2))
  let skew_mat := skew_mat.updateRow 0 (Function.update (skew_mat 0) 2 (mat_in 1))
  let skew_mat := skew_mat.updateRow 1 (Function.update (skew_mat 1) 2 (-mat_in 0))
  let skew_mat := skew_mat.updateRow 1 (Function.update (skew_mat 1) 0 (mat_in 2))
  let skew_mat := skew_mat.updateRow 2 (Function.update (skew_mat 2) 0 (-mat_in 1))
  let skew_mat := skew_mat.updateRow 2 (Function.update (skew_mat 2) 1 (mat_in 0))
  skew_mat

/-- Source `getTransformFromSe3`: the quaternion `q` and the translation `t` of a
tangent vector `se3 = (omega, upsilon)`. -/
def getTransformFromSe3 (L : Libm α) (se3 : Fin 6 → α) : Quaterniond α × Vector3d α :=
  let omega : Vector3d α := ![se3 0, se3 1, se3 2]
  let upsilon : Vector3d α := ![se3 3, se3 4, se3 5]
  let Omega := skew omega
  let theta := norm L omega
  let half_theta := 0.5 * theta
  let real_factor := L.cos half_theta
  let imag_factor :=
    if theta < 1e-10 then
      let theta_sq := theta * theta
      let theta_po4 := theta_sq * theta_sq
      0.5 - 0.0208333 * theta_sq + 0.000260417 * theta_po4
    else
      let sin_half_theta := L.sin half_theta
      sin_half_theta / theta
  let q := Quaterniond.ofWXYZ real_factor (imag_factor * omega 0) (imag_factor * omega 1)
    (imag_factor * omega 2)
  let J : Matrix3d α :=
    if theta < 1e-10 then
      q.matrix
    else
      let Omega2 := Omega * Omega
      1 + ((1 - L.cos theta) / (theta * theta)) • Omega
        + ((theta - L.sin theta) / theta ^ 3) • Omega2
  (q, J.mulVec upsilon)

/-- What an `Evaluate` call leaves behind: the returned flag, `residuals[0]`, and
the Jacobian argument after the call. -/
structure EvaluateResult (α : Type) where
  /-- Returned flag. -/
  ret : Bool
  /-- Value stored in `residuals[0]`. -/
  residual : α
  /-- The argument `jacobians` after the call: `none` is a null `jacobians`, `some none`
  a null `jacobians[0]`, `some (some J)` the seven scalars of `jacobians[0]`. -/
  jacobians : Option (Option (Fin 7 → α))

/-- Fields of `EdgeAnalyticCostFunction`. -/
structure EdgeAnalyticCostFunction (α : Type) where
  /-- The point to be aligned. -/
  curr_point : Vector3d α
  /-- First point of the line. -/
  last_point_a : Vector3d α
  /-- Second point of the line. -/
  last_point_b : Vector3d α

/-- Source `EdgeAnalyticCostFunction::Evaluate` on the parameter block `parameters[0]`. -/
def EdgeAnalyticCostFunction.Evaluate (c : EdgeAnalyticCostFunction α) (L : Libm α)
    (parameters : Fin 7 → α) (jacobians : Option (Option (Fin 7 → α))) : EvaluateResult α :=
  let q_last_curr := Quaterniond.map parameters
  let t_last_curr := translationMap parameters
  let lp := q_last_curr.transformVector c.curr_point + t_last_curr
  let nu := cross (lp - c.last_point_a) (lp - c.last_point_b)
  let de := c.last_point_a - c.last_point_b
  let de_norm := norm L de
  let residual := norm L nu / de_norm
  let jacobians :=
    match jacobians with
    | none => none
    | some none => some none
    | some (some _) =>
      let skew_lp := skew lp
      let dp_by_se3 : Matrix (Fin 3) (Fin 6) α := 0
      let dp_by_se3 := setBlock33 dp_by_se3 0 (-skew_lp)
      let dp_by_se3 := setBlock33 dp_by_se3 3 1
      let J_se3 : Fin 7 → α := fun _ => 0
      let skew_de := skew de
      let row := Matrix.vecMul (Matrix.vecMul (fun i => (-nu) i / norm L nu) skew_de) dp_by_se3
      some (some (setBlock16 J_se3 (fun k => row k / de_norm)))
  { ret := true, residual := residual, jacobians := jacobians }

/-- Fields of `SurfNormAnalyticCostFunction`. -/
structure SurfNormAnalyticCostFunction (α : Type) where
  /-- The point to be aligned. -/
  curr_point : Vector3d α
  /-- Normal of the plane. -/
  plane_unit_norm : Vector3d α
  /-- Offset of the plane. -/
  negative_OA_dot_norm : α

/-- Source `SurfNormAnalyticCostFunction::Evaluate` on the parameter block `parameters[0]`. -/
def SurfNormAnalyticCostFunction.Evaluate (c : SurfNormAnalyticCostFunction α)
    (parameters : Fin 7 → α) (jacobians : Option (Option (Fin 7 → α))) : EvaluateResult α :=
  let q_w_curr := Quaterniond.map parameters
  let t_w_curr := translationMap parameters
  let point_w := q_w_curr.transformVector c.curr_point + t_w_curr
  let residual := dot c.plane_unit_norm point_w + c.negative_OA_dot_norm
  let jacobians :=
    match jacobians with
    | none => none
    | some none => some none
    | some (some _) =>
      let skew_point_w := skew point_w
      let dp_by_se3 : Matrix (Fin 3) (Fin 6) α := 0
      let dp_by_se3 := setBlock33 dp_by_se3 0 (-skew_point_w)
      let dp_by_se3 := setBlock33 dp_by_se3 3 1
      let J_se3 : Fin 7 → α := fun _ => 0
      some (some (setBlock16 J_se3 (Matrix.vecMul c.plane_unit_norm dp_by_se3)))
  { ret := true, residual := residual, jacobians := jacobians }

/-- Source `PoseSE3Parameterization::Plus`: the returned flag and the seven scalars
written to `x_plus_delta`. -/
def PoseSE3Parameterization.Plus (L : Libm α) (x : Fin 7 → α) (delta : Fin 6 → α) :
    Bool × (Fin 7 → α) :=
  let trans := translationMap x
  let (delta_q, delta_t) := getTransformFromSe3 L delta
  let quater := Quaterniond.map x
  let quater_plus := delta_q.mul quater
  let trans_plus := delta_q.transformVector trans + delta_t
  (true, ![quater_plus.x, quater_plus.y, quater_plus.z, quater_plus.w,
           trans_plus 0, trans_plus 1, trans_plus 2])

/-- Entry `(i, k)` of the view `Eigen::Map<Matrix<double, 7, 6, RowMajor>>` of a buffer of
forty-two scalars. -/
def rowMajorIndex (i : Fin 7) (k : Fin 6) : Fin 42 :=
  ⟨i.val * 6 + k.val, by omega⟩

/-- Source `PoseSE3Parameterization::ComputeJacobian`: the returned flag and the buffer
`jacobian` after `topRows(6).setIdentity()` and `bottomRows(1).setZero()`. -/
def PoseSE3Parameterization.ComputeJacobian (_x : Fin 7 → α) (jacobian : Fin 42 → α) :
    Bool × (Fin 42 → α) :=
  let j1 : Fin 42 → α := fun n =>
    if n.val / 6 < 6 then (if n.val / 6 = n.val % 6 then 1 else 0) else jacobian n
  let j2 : Fin 42 → α := fun n =>
    if 7 - 1 ≤ n.val / 6 then 0 else j1 n
  (true, j2)

end Source

/-- The point `q * P + t` that both `Evaluate` functions compute from a pose buffer
(`lp` in the edge cost, `point_w` in the plane cost). -/
def transformedPoint [LinearOrderedField α] (parameters : Fin 7 → α) (P : Vector3d α) :
    Vector3d α :=
  (Quaterniond.map parameters).transformVector P + translationMap parameters

/-- The quaternion that the branch `theta < 1e-10` of `getTransformFromSe3` builds, with
`theta * theta` written as the sum of the squared coefficients of `omega`. -/
def smallAngleQuaternion [LinearOrderedField α] (L : Libm α) (se3 : Fin 6 → α) :
    Quaterniond α :=
  let s := se3 0 * se3 0 + se3 1 * se3 1 + se3 2 * se3 2
  let imag_factor := 0.5 - 0.0208333 * s + 0.000260417 * (s * s)
  Quaterniond.ofWXYZ (L.cos (0.5 * L.sqrt s)) (imag_factor * se3 0) (imag_factor * se3 1)
    (imag_factor * se3 2)

section Auxiliary

variable [LinearOrderedField α]

/-- The imaginary scale that the branch `theta < 1e-10` of `getTransformFromSe3` computes. -/
def imagFactorSeries (theta : α) : α :=
  let theta_sq := theta * theta
  let theta_po4 := theta_sq * theta_sq
  0.5 - 0.0208333 * theta_sq + 0.000260417 * theta_po4

/-- The imaginary scale that the other branch of `getTransformFromSe3` computes. -/
def imagFactorClosedForm (L : Libm α) (theta : α) : α :=
  let sin_half_theta := L.sin (0.5 * theta)
  sin_half_theta / theta

/-- The quaternion that `getTransformFromSe3` builds from an imaginary scale. -/
def quaternionOfImagFactor (L : Libm α) (imag_factor : α) (se3 : Fin 6 → α) : Quaterniond α :=
  let omega : Vector3d α := ![se3 0, se3 1, se3 2]
  let theta := norm L omega
  let half_theta := 0.5 * theta
  let real_factor := L.cos half_theta
  Quaterniond.ofWXYZ real_factor (imag_factor * omega 0) (imag_factor * omega 1)
    (imag_factor * omega 2)

/-- Coefficient-wise division of a vector by a scalar, as a guarded operation: `none` when
the divisor is zero. -/
def guardedDiv {n : Nat} (v : Fin n → α) (b : α) : Option (Fin n → α) :=
  if b = 0 then none else some (fun i => v i / b)

/-- What a guarded `Evaluate` call leaves behind; `none` in `residual`, or in the innermost
position of `jacobians`, records a division by zero. -/
structure GuardedEvaluateResult (α : Type) where
  /-- Returned flag. -/
  ret : Bool
  /-- Value stored in `residuals[0]`, or `none` after a division by zero. -/
  residual : Option α
  /-- The argument `jacobians` after the call, the row being `none` after a division by
  zero. -/
  jacobians : Option (Option (Option (Fin 7 → α)))

/-- Source `EdgeAnalyticCostFunction::Evaluate` with every division guarded: the same
statements in the same order, the two divisions by `de_norm` and the division by `nu.norm()`
failing on a zero divisor. -/
def EdgeAnalyticCostFunction.EvaluateGuarded (c : EdgeAnalyticCostFunction α) (L : Libm α)
    (parameters : Fin 7 → α) (jacobians : Option (Option (Fin 7 → α))) :
    GuardedEvaluateResult α :=
  let q_last_curr := Quaterniond.map parameters
  let t_last_curr := translationMap parameters
  let lp := q_last_curr.transformVector c.curr_point + t_last_curr
  let nu := cross (lp - c.last_point_a) (lp - c.last_point_b)
  let de := c.last_point_a - c.last_point_b
  let de_norm := norm L de
  let residual := (guardedDiv (fun _ : Fin 1 => norm L nu) de_norm).map (fun r => r 0)
  let jacobians :=
    match jacobians with
    | none => none
    | some none => some none
    | some (some _) =>
      let skew_lp := skew lp
      let dp_by_se3 : Matrix (Fin 3) (Fin 6) α := 0
      let dp_by_se3 := setBlock33 dp_by_se3 0 (-skew_lp)
      let dp_by_se3 := setBlock33 dp_by_se3 3 1
      let J_se3 : Fin 7 → α := fun _ => 0
      let skew_de := skew de
      some (some
        ((guardedDiv (-nu) (norm L nu)).bind fun unit_nu =>
          (guardedDiv (Matrix.vecMul (Matrix.vecMul unit_nu skew_de) dp_by_se3) de_norm).map
            fun row => setBlock16 J_se3 row))
  { ret := true, residual := residual, jacobians := jacobians }

end Auxiliary

/-- The function `f` of the tangent increment takes the value `v` at the zero increment and
is Fréchet differentiable there, with derivative the linear map `D`. -/
def HasTangentAtZero (f : (Fin 6 → ℝ) → ℝ) (v : ℝ) (D : (Fin 6 → ℝ) → ℝ) : Prop :=
  f 0 = v ∧ ∃ f' : (Fin 6 → ℝ) →L[ℝ] ℝ, (∀ δ, f' δ = D δ) ∧ HasFDerivAt f f' 0



/-! ## `skew` -/

section Algebra

variable [LinearOrderedField α]

/-- The matrix that `skew` returns, entry by entry. -/
theorem skew_eq (v : Vector3d α) :
    skew v = !![0, -v 2, v 1; v 2, 0, -v 0; -v 1, v 0, 0] := by
  ext i j
  fin_cases i <;> fin_cases j <;> simp [skew, Matrix.updateRow_apply, Function.update_apply]

/-- C7: for all 3-vectors `v` and `x`, `skew(v)·x` is the cross product `v × x`, both as
Eigen's `v.cross(x)` and as the cross product of Mathlib. -/
theorem skew_mulVec_eq_cross (v x : Vector3d α) :
    (skew v).mulVec x = cross v x ∧ (skew v).mulVec x = crossProduct v x := by
  rw [skew_eq]
  constructor
  · ext i
    fin_cases i <;> simp [cross, Matrix.mulVec, Matrix.dotProduct, Fin.sum_univ_succ] <;> ring
  · ext i
    fin_cases i <;>
      simp [crossProduct, Matrix.mulVec, Matrix.dotProduct, Fin.sum_univ_succ] <;> ring

/-- C8: for every 3-vector `v`, `skew(v)` equals minus its transpose, and its diagonal
is zero. -/
theorem skew_antisymmetric (v : Vector3d α) :
    skew v = -(skew v).transpose ∧ ∀ i, skew v i i = 0 := by
  rw [skew_eq]
  constructor
  · ext i j
    simp only [Matrix.neg_apply, Matrix.transpose_apply]
    fin_cases i <;> fin_cases j <;> simp
  · intro i
    fin_cases i <;> simp

/-! ## `PoseSE3Parameterization::ComputeJacobian` -/

/-- Entry `(i, k)` of the matrix that `ComputeJacobian` writes. -/
theorem ComputeJacobian_apply (x : Fin 7 → α) (jacobian : Fin 42 → α) (i : Fin 7) (k : Fin 6) :
    (PoseSE3Parameterization.ComputeJacobian x jacobian).2 (rowMajorIndex i k)
      = if i.val = k.val then 1 else 0 := by
  have h1 : (i.val * 6 + k.val) / 6 = i.val := by omega
  have h2 : (i.val * 6 + k.val) % 6 = k.val := by omega
  simp only [PoseSE3Parameterization.ComputeJacobian, rowMajorIndex, h1, h2]
  have hi := i.isLt
  have hk := k.isLt
  by_cases h6 : i.val < 6
  · have : ¬ (7 - 1 ≤ i.val) := by omega
    simp [h6, this]
  · have h7 : 7 - 1 ≤ i.val := by omega
    have hne : ¬ (i.val = k.val) := by omega
    simp [h7, hne]

/-- A row of seven scalars times the matrix of `ComputeJacobian` is the row of its first
six scalars. -/
theorem vecMul_ComputeJacobian (J : Fin 7 → α) (x : Fin 7 → α) (jacobian : Fin 42 → α) :
    Matrix.vecMul J (Matrix.of fun i k =>
        (PoseSE3Parameterization.ComputeJacobian x jacobian).2 (rowMajorIndex i k))
      = fun k => J k.castSucc := by
  funext k
  simp only [Matrix.vecMul, Matrix.dotProduct, Matrix.of_apply, ComputeJacobian_apply]
  rw [Finset.sum_eq_single k.castSucc]
  · simp
  · intro i _ hik
    have : ¬ (i.val = k.val) := fun h => hik (Fin.ext (by simpa using h))
    simp [this]
  · simp

/-- C9: for every pose `x` (and whatever the buffer held before), `ComputeJacobian` writes
the row-major 7×6 matrix whose entry `(i, k)` is 1 when `i = k < 6` and 0 otherwise: the top
six rows are the 6×6 identity, the seventh row is zero, and the result does not depend
on `x`. -/
theorem ComputeJacobian_entries (x : Fin 7 → α) (jacobian : Fin 42 → α) :
    (∀ (i : Fin 7) (k : Fin 6),
      (PoseSE3Parameterization.ComputeJacobian x jacobian).2 (rowMajorIndex i k)
        = if i.val = k.val ∧ i.val < 6 then 1 else 0)
    ∧ (∀ i k : Fin 6,
      (PoseSE3Parameterization.ComputeJacobian x jacobian).2 (rowMajorIndex i.castSucc k)
        = (1 : Matrix (Fin 6) (Fin 6) α) i k)
    ∧ (∀ k : Fin 6,
      (PoseSE3Parameterization.ComputeJacobian x jacobian).2 (rowMajorIndex 6 k) = 0)
    ∧ (∀ (y : Fin 7 → α) (other : Fin 42 → α),
      PoseSE3Parameterization.ComputeJacobian y other
        = PoseSE3Parameterization.ComputeJacobian x jacobian) := by
  refine ⟨?_, ?_, ?_, ?_⟩
  · intro i k
    rw [ComputeJacobian_apply]
    have hk := k.isLt
    by_cases h : i.val = k.val
    · have : i.val < 6 := by omega
      simp [h, this]
    · simp [h]
  · intro i k
    rw [ComputeJacobian_apply]
    simp [Matrix.one_apply, Fin.ext_iff]
  · intro k
    rw [ComputeJacobian_apply]
    have h6 : ((6 : Fin 7) : ℕ) = 6 := rfl
    have hk := k.isLt
    have : ¬ (((6 : Fin 7) : ℕ) = k.val) := by omega
    simp [this]
  · intro y other
    simp only [PoseSE3Parameterization.ComputeJacobian, Prod.mk.injEq, true_and]
    funext n
    have hn := n.isLt
    by_cases h6 : n.val / 6 < 6
    · simp [h6]
    · have : 7 - 1 ≤ n.val / 6 := by omega
      simp [this]

/-- C10: the Jacobian row of seven scalars written by `EdgeAnalyticCostFunction::Evaluate`,
and the one written by `SurfNormAnalyticCostFunction::Evaluate`, multiplied on the right by
the 7×6 matrix of `ComputeJacobian` at the same pose, is the row of its first six entries. -/
theorem jacobian_row_times_ComputeJacobian (e : EdgeAnalyticCostFunction α)
    (s : SurfNormAnalyticCostFunction α) (L : Libm α) (parameters J0 : Fin 7 → α)
    (jacobian : Fin 42 → α) :
    (∃ J, (e.Evaluate L parameters (some (some J0))).jacobians = some (some J) ∧
      Matrix.vecMul J (Matrix.of fun i k =>
        (PoseSE3Parameterization.ComputeJacobian parameters jacobian).2 (rowMajorIndex i k))
        = fun k => J k.castSucc) ∧
    (∃ J, (s.Evaluate parameters (some (some J0))).jacobians = some (some J) ∧
      Matrix.vecMul J (Matrix.of fun i k =>
        (PoseSE3Parameterization.ComputeJacobian parameters jacobian).2 (rowMajorIndex i k))
        = fun k => J k.castSucc) :=
  ⟨⟨_, rfl, vecMul_ComputeJacobian _ _ _⟩, ⟨_, rfl, vecMul_ComputeJacobian _ _ _⟩⟩

end Algebra

/-! ## Distances: the two residuals over the reals -/

/-- A vector dotted with itself is not negative. -/
theorem dot_self_nonneg (v : Vector3d ℝ) : 0 ≤ dot v v := by
  unfold dot
  nlinarith [mul_self_nonneg (v 0), mul_self_nonneg (v 1), mul_self_nonneg (v 2)]

/-- The difference of two distinct points has positive squared length. -/
theorem dot_self_pos_of_ne (a b : Vector3d ℝ) (h : a ≠ b) : 0 < dot (a - b) (a - b) := by
  rcases lt_or_eq_of_le (dot_self_nonneg (a - b)) with hlt | heq
  · exact hlt
  · exfalso
    apply h
    have e : (a 0 - b 0) * (a 0 - b 0) + (a 1 - b 1) * (a 1 - b 1)
        + (a 2 - b 2) * (a 2 - b 2) = 0 := by
      simpa [dot] using heq.symm
    have h0 : a 0 - b 0 = 0 := by
      nlinarith [mul_self_nonneg (a 0 - b 0), mul_self_nonneg (a 1 - b 1),
        mul_self_nonneg (a 2 - b 2)]
    have h1 : a 1 - b 1 = 0 := by
      nlinarith [mul_self_nonneg (a 0 - b 0), mul_self_nonneg (a 1 - b 1),
        mul_self_nonneg (a 2 - b 2)]
    have h2 : a 2 - b 2 = 0 := by
      nlinarith [mul_self_nonneg (a 0 - b 0), mul_self_nonneg (a 1 - b 1),
        mul_self_nonneg (a 2 - b 2)]
    funext i
    fin_cases i
    · exact sub_eq_zero.mp h0
    · exact sub_eq_zero.mp h1
    · exact sub_eq_zero.mp h2

/-- Lagrange identity for the numerator of the edge residual. -/
theorem dot_cross_self (x a b : Vector3d ℝ) :
    dot (cross (x - a) (x - b)) (cross (x - a) (x - b))
      = dot (x - a) (x - a) * dot (a - b) (a - b) - dot (x - a) (b - a) ^ 2 := by
  simp [dot, cross]
  ring

/-- Squared distance from `x` to the point of parameter `s` on the line through `a`, `b`. -/
theorem dot_sub_line (x a b : Vector3d ℝ) (s : ℝ) :
    dot (x - (a + s • (b - a))) (x - (a + s • (b - a)))
      = dot (x - a) (x - a) - 2 * s * dot (x - a) (b - a) + s ^ 2 * dot (a - b) (a - b) := by
  simp [dot]
  ring

/-- The squared edge residual is below every squared distance to a point of the line. -/
theorem edge_quotient_le (x a b : Vector3d ℝ) (hab : a ≠ b) (s : ℝ) :
    dot (cross (x - a) (x - b)) (cross (x - a) (x - b)) / dot (a - b) (a - b)
      ≤ dot (x - (a + s • (b - a))) (x - (a + s • (b - a))) := by
  have hD := dot_self_pos_of_ne a b hab
  rw [div_le_iff₀ hD, dot_cross_self, dot_sub_line]
  nlinarith [sq_nonneg (s * dot (a - b) (a - b) - dot (x - a) (b - a))]

/-- The squared edge residual is attained at the foot of the perpendicular. -/
theorem edge_quotient_eq (x a b : Vector3d ℝ) (hab : a ≠ b) :
    dot (cross (x - a) (x - b)) (cross (x - a) (x - b)) / dot (a - b) (a - b)
      = dot (x - (a + (dot (x - a) (b - a) / dot (a - b) (a - b)) • (b - a)))
          (x - (a + (dot (x - a) (b - a) / dot (a - b) (a - b)) • (b - a))) := by
  have hD := dot_self_pos_of_ne a b hab
  rw [dot_cross_self, dot_sub_line]
  field_simp
  ring

/-- The quotient `‖(x−a)×(x−b)‖ / ‖a−b‖` is the least distance from `x` to a point of the
line through `a` and `b`. -/
theorem edge_distance_isLeast (x a b : Vector3d ℝ) (hab : a ≠ b) :
    IsLeast {d : ℝ | ∃ s : ℝ, d = norm (Libm.mk Real.sqrt Real.sin Real.cos)
        (x - (a + s • (b - a)))}
      (norm (Libm.mk Real.sqrt Real.sin Real.cos) (cross (x - a) (x - b))
        / norm (Libm.mk Real.sqrt Real.sin Real.cos) (a - b)) := by
  simp only [norm]
  rw [← Real.sqrt_div (dot_self_nonneg _)]
  constructor
  · exact ⟨_, congrArg Real.sqrt (edge_quotient_eq x a b hab)⟩
  · rintro d ⟨s, rfl⟩
    exact Real.sqrt_le_sqrt (edge_quotient_le x a b hab s)

/-- C3: for every pose and every `P`, `A`, `B` with `A ≠ B`, the residual of
`EdgeAnalyticCostFunction::Evaluate` is `‖(lp−A)×(lp−B)‖ / ‖A−B‖` with `lp = q·P + t`, it is
the least Euclidean distance from `lp` to a point `A + s·(B−A)` of the line through `A` and
`B`, and it is not negative. -/
theorem edge_residual_is_distance (c : EdgeAnalyticCostFunction ℝ) (parameters : Fin 7 → ℝ)
    (jacobians : Option (Option (Fin 7 → ℝ)))
    (hab : c.last_point_a ≠ c.last_point_b) :
    (c.Evaluate (Libm.mk Real.sqrt Real.sin Real.cos) parameters jacobians).residual
      = norm (Libm.mk Real.sqrt Real.sin Real.cos)
          (cross
            ((Quaterniond.map parameters).transformVector c.curr_point
              + translationMap parameters - c.last_point_a)
            ((Quaterniond.map parameters).transformVector c.curr_point
              + translationMap parameters - c.last_point_b))
        / norm (Libm.mk Real.sqrt Real.sin Real.cos) (c.last_point_a - c.last_point_b)
    ∧ IsLeast {d : ℝ | ∃ s : ℝ, d = norm (Libm.mk Real.sqrt Real.sin Real.cos)
        ((Quaterniond.map parameters).transformVector c.curr_point + translationMap parameters
          - (c.last_point_a + s • (c.last_point_b - c.last_point_a)))}
      (c.Evaluate (Libm.mk Real.sqrt Real.sin Real.cos) parameters jacobians).residual
    ∧ 0 ≤ (c.Evaluate (Libm.mk Real.sqrt Real.sin Real.cos) parameters jacobians).residual := by
  refine ⟨rfl, edge_distance_isLeast _ _ _ hab, ?_⟩
  exact div_nonneg (Real.sqrt_nonneg _) (Real.sqrt_nonneg _)

/-- Cauchy-Schwarz for `dot`. -/
theorem dot_sq_le (n y : Vector3d ℝ) : dot n y ^ 2 ≤ dot n n * dot y y := by
  unfold dot
  nlinarith [sq_nonneg (n 0 * y 1 - n 1 * y 0), sq_nonneg (n 0 * y 2 - n 2 * y 0),
    sq_nonneg (n 1 * y 2 - n 2 * y 1)]

/-- The map `dot n` is additive in its second argument. -/
theorem dot_sub_right (n x y : Vector3d ℝ) : dot n (x - y) = dot n x - dot n y := by
  simp [dot]
  ring

/-- A vector has `norm` one exactly when it dotted with itself is one. -/
theorem norm_eq_one_iff (n : Vector3d ℝ) :
    norm (Libm.mk Real.sqrt Real.sin Real.cos) n = 1 ↔ dot n n = 1 := by
  simp [norm, Real.sqrt_eq_one]

/-- For a unit normal `n`, `|n·x + d|` is the least distance from `x` to a point of the
plane `n·y + d = 0`. -/
theorem plane_distance_isLeast (n x : Vector3d ℝ) (d : ℝ)
    (hn : norm (Libm.mk Real.sqrt Real.sin Real.cos) n = 1) :
    IsLeast {δ : ℝ | ∃ y : Vector3d ℝ, dot n y + d = 0 ∧
        δ = norm (Libm.mk Real.sqrt Real.sin Real.cos) (x - y)}
      |dot n x + d| := by
  have hn1 : dot n n = 1 := (norm_eq_one_iff n).mp hn
  constructor
  · refine ⟨x - (dot n x + d) • n, ?_, ?_⟩
    · have e : dot n (x - (dot n x + d) • n) = dot n x - (dot n x + d) * dot n n := by
        simp [dot]
        ring
      rw [e, hn1]
      ring
    · have e : dot (x - (x - (dot n x + d) • n)) (x - (x - (dot n x + d) • n))
          = (dot n x + d) ^ 2 * dot n n := by
        simp [dot]
        ring
      simp only [norm]
      rw [e, hn1, mul_one, Real.sqrt_sq_eq_abs]
  · rintro δ ⟨y, hy, rfl⟩
    have e : dot n x + d = dot n (x - y) := by
      rw [dot_sub_right]
      linarith
    simp only [norm]
    rw [e]
    apply Real.abs_le_sqrt
    have := dot_sq_le n (x - y)
    rw [hn1, one_mul] at this
    exact this

/-- C4: for every pose, every `P`, every unit-length normal `n` and every offset `d`, the
residual of `SurfNormAnalyticCostFunction::Evaluate` is `n·pw + d` with `pw = q·P + t`; its
absolute value is the least Euclidean distance from `pw` to a point of the plane
`n·y + d = 0`, and it is zero exactly when `pw` lies on that plane. -/
theorem surf_residual_is_signed_distance (c : SurfNormAnalyticCostFunction ℝ)
    (parameters : Fin 7 → ℝ) (jacobians : Option (Option (Fin 7 → ℝ)))
    (hn : norm (Libm.mk Real.sqrt Real.sin Real.cos) c.plane_unit_norm = 1) :
    (c.Evaluate parameters jacobians).residual
      = dot c.plane_unit_norm
          ((Quaterniond.map parameters).transformVector c.curr_point + translationMap parameters)
        + c.negative_OA_dot_norm
    ∧ IsLeast {δ : ℝ | ∃ y : Vector3d ℝ,
        dot c.plane_unit_norm y + c.negative_OA_dot_norm = 0 ∧
        δ = norm (Libm.mk Real.sqrt Real.sin Real.cos)
          ((Quaterniond.map parameters).transformVector c.curr_point
            + translationMap parameters - y)}
      |(c.Evaluate parameters jacobians).residual|
    ∧ ((c.Evaluate parameters jacobians).residual = 0 ↔
        (Quaterniond.map parameters).transformVector c.curr_point + translationMap parameters
          ∈ {y : Vector3d ℝ | dot c.plane_unit_norm y + c.negative_OA_dot_norm = 0}) :=
  ⟨rfl, plane_distance_isLeast _ _ _ hn, Iff.rfl⟩

/-! ## `PoseSE3Parameterization::Plus` -/

/-- The zero vector has `norm` zero. -/
theorem norm_real_zero :
    norm (Libm.mk Real.sqrt Real.sin Real.cos) (![0, 0, 0] : Vector3d ℝ) = 0 := by
  simp [norm, dot]

/-- The zero increment gives the identity quaternion and the zero translation. -/
theorem getTransformFromSe3_zero :
    getTransformFromSe3 (Libm.mk Real.sqrt Real.sin Real.cos) (0 : Fin 6 → ℝ)
      = (Quaterniond.ofWXYZ 1 0 0 0, 0) := by
  simp only [getTransformFromSe3, Pi.zero_apply, norm_real_zero]
  norm_num
  funext i
  simp [Matrix.mulVec, Matrix.dotProduct, Fin.sum_univ_succ]

/-- C5: for every pose `x` of seven scalars, `Plus(x, delta)` with `delta` the zero 6-vector
returns true and writes a pose equal to `x` in all seven components. -/
theorem Plus_zero (x : Fin 7 → ℝ) :
    PoseSE3Parameterization.Plus (Libm.mk Real.sqrt Real.sin Real.cos) x 0 = (true, x) := by
  simp only [PoseSE3Parameterization.Plus, getTransformFromSe3_zero]
  simp only [Prod.mk.injEq, true_and]
  funext i
  fin_cases i <;>
    simp [Quaterniond.mul, Quaterniond.ofWXYZ, Quaterniond.map, Quaterniond.transformVector,
      Quaterniond.vec, cross, translationMap] <;> rfl

/-- Rotation part of the pose written by `Plus`. -/
theorem map_Plus (L : Libm ℝ) (x : Fin 7 → ℝ) (delta : Fin 6 → ℝ) :
    Quaterniond.map (PoseSE3Parameterization.Plus L x delta).2
      = (getTransformFromSe3 L delta).1.mul (Quaterniond.map x) := by
  simp [PoseSE3Parameterization.Plus, Quaterniond.map]

/-- Translation part of the pose written by `Plus`. -/
theorem translationMap_Plus (L : Libm ℝ) (x : Fin 7 → ℝ) (delta : Fin 6 → ℝ) :
    translationMap (PoseSE3Parameterization.Plus L x delta).2
      = (getTransformFromSe3 L delta).1.transformVector (translationMap x)
        + (getTransformFromSe3 L delta).2 := by
  funext i
  fin_cases i <;> simp [PoseSE3Parameterization.Plus, translationMap] <;> rfl

/-- Squared norm of the quaternion of `getTransformFromSe3`. -/
theorem squaredNorm_getTransformFromSe3 (delta : Fin 6 → ℝ) :
    (getTransformFromSe3 (Libm.mk Real.sqrt Real.sin Real.cos) delta).1.squaredNorm
      = Real.cos (0.5 * norm (Libm.mk Real.sqrt Real.sin Real.cos) ![delta 0, delta 1, delta 2]) ^ 2
        + ((if norm (Libm.mk Real.sqrt Real.sin Real.cos) ![delta 0, delta 1, delta 2] < 1e-10
            then 0.5 - 0.0208333 * (norm (Libm.mk Real.sqrt Real.sin Real.cos)
                  ![delta 0, delta 1, delta 2]) ^ 2
                + 0.000260417 * (norm (Libm.mk Real.sqrt Real.sin Real.cos)
                  ![delta 0, delta 1, delta 2]) ^ 4
            else Real.sin (0.5 * norm (Libm.mk Real.sqrt Real.sin Real.cos)
                  ![delta 0, delta 1, delta 2])
              / norm (Libm.mk Real.sqrt Real.sin Real.cos) ![delta 0, delta 1, delta 2])
          * norm (Libm.mk Real.sqrt Real.sin Real.cos) ![delta 0, delta 1, delta 2]) ^ 2 := by
  have hs : norm (Libm.mk Real.sqrt Real.sin Real.cos) ![delta 0, delta 1, delta 2] ^ 2
      = delta 0 * delta 0 + delta 1 * delta 1 + delta 2 * delta 2 := by
    have := Real.sq_sqrt (dot_self_nonneg ![delta 0, delta 1, delta 2])
    simpa [norm, dot] using this
  simp only [getTransformFromSe3, Quaterniond.squaredNorm, Quaterniond.ofWXYZ,
    Matrix.cons_val_zero, Matrix.cons_val_one, Matrix.head_cons, Matrix.cons_val_two,
    Matrix.tail_cons]
  generalize norm (Libm.mk Real.sqrt Real.sin Real.cos) ![delta 0, delta 1, delta 2] = θ at hs ⊢
  split_ifs
  · linear_combination
      (-(0.5 - 0.0208333 * (θ * θ) + 0.000260417 * (θ * θ * (θ * θ))) ^ 2) * hs
  · linear_combination (-(Real.sin (0.5 * θ) / θ) ^ 2) * hs

/-- Above the small-angle threshold the quaternion has norm one. -/
theorem squaredNorm_of_threshold_le (delta : Fin 6 → ℝ)
    (h : 1e-10 ≤ norm (Libm.mk Real.sqrt Real.sin Real.cos) ![delta 0, delta 1, delta 2]) :
    (getTransformFromSe3 (Libm.mk Real.sqrt Real.sin Real.cos) delta).1.squaredNorm = 1 := by
  rw [squaredNorm_getTransformFromSe3, if_neg (not_lt.mpr h)]
  have hpos : (0 : ℝ) < 1e-10 := by norm_num
  have hne : norm (Libm.mk Real.sqrt Real.sin Real.cos) ![delta 0, delta 1, delta 2] ≠ 0 :=
    ne_of_gt (lt_of_lt_of_le hpos h)
  rw [div_mul_cancel₀ _ hne]
  exact Real.cos_sq_add_sin_sq _

/-- At rotation angle zero the quaternion has norm one. -/
theorem squaredNorm_of_angle_zero (delta : Fin 6 → ℝ)
    (h : norm (Libm.mk Real.sqrt Real.sin Real.cos) ![delta 0, delta 1, delta 2] = 0) :
    (getTransformFromSe3 (Libm.mk Real.sqrt Real.sin Real.cos) delta).1.squaredNorm = 1 := by
  rw [squaredNorm_getTransformFromSe3, h]
  norm_num

/-- The truncated series exceeds the sine strictly inside the small-angle branch. -/
theorem sin_half_lt_series (θ : ℝ) (h0 : 0 < θ) (h1 : θ < 1e-10) :
    Real.sin (0.5 * θ) < (0.5 - 0.0208333 * θ ^ 2 + 0.000260417 * θ ^ 4) * θ := by
  have hx : |0.5 * θ| ≤ 1 := by
    rw [abs_of_pos (by positivity)]
    norm_num at h1 ⊢
    linarith
  have hb := Real.sin_bound hx
  rw [abs_le] at hb
  have hb2 := hb.2
  rw [abs_of_pos (by positivity : (0:ℝ) < 0.5 * θ)] at hb2
  have h3 : 0 < θ ^ 3 := by positivity
  have h5 : 0 < θ ^ 5 := by positivity
  have key : (0.5 * θ) ^ 4 * (5 / 96) < (1 / 48 - 0.0208333) * θ ^ 3 := by
    have : (0.5 * θ) ^ 4 * (5 / 96) = θ ^ 3 * (θ * (5 / 1536)) := by ring
    rw [this, mul_comm _ (θ ^ 3)]
    apply mul_lt_mul_of_pos_left _ h3
    norm_num at h1 ⊢
    linarith
  norm_num at hb2 key ⊢
  nlinarith

/-- Over the reals the truncated series is not exactly `sin(θ/2)/θ`, so strictly inside the
small-angle branch the squared norm is not exactly one; it is within `1e-47` of one, see
`squaredNorm_getTransformFromSe3_near_one`. -/
theorem squaredNorm_of_small_angle (delta : Fin 6 → ℝ)
    (h0 : 0 < norm (Libm.mk Real.sqrt Real.sin Real.cos) ![delta 0, delta 1, delta 2])
    (h1 : norm (Libm.mk Real.sqrt Real.sin Real.cos) ![delta 0, delta 1, delta 2] < 1e-10) :
    (getTransformFromSe3 (Libm.mk Real.sqrt Real.sin Real.cos) delta).1.squaredNorm ≠ 1 := by
  rw [squaredNorm_getTransformFromSe3, if_pos h1]
  have hlt := sin_half_lt_series _ h0 h1
  have hsin : 0 ≤ Real.sin (0.5 * norm (Libm.mk Real.sqrt Real.sin Real.cos)
      ![delta 0, delta 1, delta 2]) := by
    apply Real.sin_nonneg_of_nonneg_of_le_pi (by positivity)
    have := Real.pi_gt_three
    norm_num at h1 ⊢
    linarith
  have hsq := Real.cos_sq_add_sin_sq (0.5 * norm (Libm.mk Real.sqrt Real.sin Real.cos)
      ![delta 0, delta 1, delta 2])
  intro hcontra
  nlinarith [pow_lt_pow_left₀ hlt hsin (two_ne_zero)]


/-- The `norm` of the vector `(a, 0, 0)` with `a ≥ 0` is `a`. -/
theorem norm_axis (a : ℝ) (ha : 0 ≤ a) :
    norm (Libm.mk Real.sqrt Real.sin Real.cos) ![a, 0, 0] = a := by
  simp [norm, dot, Real.sqrt_mul_self ha]

/-- A constant function. -/
theorem HasTangentAtZero.const (c : ℝ) : HasTangentAtZero (fun _ => c) c (fun _ => 0) :=
  ⟨rfl, 0, fun _ => rfl, hasFDerivAt_const c 0⟩

/-- A coordinate of the increment. -/
theorem HasTangentAtZero.coord (i : Fin 6) :
    HasTangentAtZero (fun δ => δ i) 0 (fun δ => δ i) :=
  ⟨rfl, ContinuousLinearMap.proj i, fun _ => rfl, hasFDerivAt_apply i 0⟩

/-- Sum rule. -/
theorem HasTangentAtZero.add {f g : (Fin 6 → ℝ) → ℝ} {v w : ℝ} {D E : (Fin 6 → ℝ) → ℝ}
    (hf : HasTangentAtZero f v D) (hg : HasTangentAtZero g w E) :
    HasTangentAtZero (fun δ => f δ + g δ) (v + w) (fun δ => D δ + E δ) := by
  obtain ⟨hv, f', hf', hfd⟩ := hf
  obtain ⟨hw, g', hg', hgd⟩ := hg
  exact ⟨by simp [hv, hw], f' + g', fun δ => by simp [hf', hg'], hfd.add hgd⟩

/-- Difference rule. -/
theorem HasTangentAtZero.sub {f g : (Fin 6 → ℝ) → ℝ} {v w : ℝ} {D E : (Fin 6 → ℝ) → ℝ}
    (hf : HasTangentAtZero f v D) (hg : HasTangentAtZero g w E) :
    HasTangentAtZero (fun δ => f δ - g δ) (v - w) (fun δ => D δ - E δ) := by
  obtain ⟨hv, f', hf', hfd⟩ := hf
  obtain ⟨hw, g', hg', hgd⟩ := hg
  exact ⟨by simp [hv, hw], f' - g', fun δ => by simp [hf', hg'], hfd.sub hgd⟩

/-- Negation rule. -/
theorem HasTangentAtZero.neg {f : (Fin 6 → ℝ) → ℝ} {v : ℝ} {D : (Fin 6 → ℝ) → ℝ}
    (hf : HasTangentAtZero f v D) :
    HasTangentAtZero (fun δ => -f δ) (-v) (fun δ => -D δ) := by
  obtain ⟨hv, f', hf', hfd⟩ := hf
  exact ⟨by simp [hv], -f', fun δ => by simp [hf'], hfd.neg⟩

/-- Product rule. -/
theorem HasTangentAtZero.mul {f g : (Fin 6 → ℝ) → ℝ} {v w : ℝ} {D E : (Fin 6 → ℝ) → ℝ}
    (hf : HasTangentAtZero f v D) (hg : HasTangentAtZero g w E) :
    HasTangentAtZero (fun δ => f δ * g δ) (v * w) (fun δ => v * E δ + w * D δ) := by
  obtain ⟨hv, f', hf', hfd⟩ := hf
  obtain ⟨hw, g', hg', hgd⟩ := hg
  refine ⟨by simp [hv, hw], v • g' + w • f', fun δ => by simp [hf', hg'], ?_⟩
  have := hfd.mul hgd
  rw [hv, hw] at this
  exact this

/-- Square root rule, away from zero. -/
theorem HasTangentAtZero.sqrt {f : (Fin 6 → ℝ) → ℝ} {v : ℝ} {D : (Fin 6 → ℝ) → ℝ}
    (hf : HasTangentAtZero f v D) (hv : v ≠ 0) :
    HasTangentAtZero (fun δ => Real.sqrt (f δ)) (Real.sqrt v)
      (fun δ => 1 / (2 * Real.sqrt v) * D δ) := by
  obtain ⟨hv0, f', hf', hfd⟩ := hf
  refine ⟨by simp [hv0], (1 / (2 * Real.sqrt v)) • f', fun δ => by simp [hf'], ?_⟩
  have := hfd.sqrt (by rw [hv0]; exact hv)
  rw [hv0] at this
  exact this

/-- Division by a constant. -/
theorem HasTangentAtZero.div_const {f : (Fin 6 → ℝ) → ℝ} {v : ℝ} {D : (Fin 6 → ℝ) → ℝ}
    (hf : HasTangentAtZero f v D) (c : ℝ) :
    HasTangentAtZero (fun δ => f δ / c) (v / c) (fun δ => D δ / c) := by
  obtain ⟨hv0, f', hf', hfd⟩ := hf
  refine ⟨by simp [hv0], c⁻¹ • f', fun δ => by simp [hf', div_eq_inv_mul], ?_⟩
  have := hfd.const_mul c⁻¹
  simpa [div_eq_inv_mul] using this

/-- A function that agrees near zero with one that has a tangent has the same tangent. -/
theorem HasTangentAtZero.congr {f g : (Fin 6 → ℝ) → ℝ} {v w : ℝ} {D E : (Fin 6 → ℝ) → ℝ}
    (hf : HasTangentAtZero f v D) (hfg : g =ᶠ[nhds 0] f) (hvw : v = w) (hDE : ∀ δ, D δ = E δ) :
    HasTangentAtZero g w E := by
  obtain ⟨hv0, f', hf', hfd⟩ := hf
  refine ⟨?_, f', fun δ => by rw [hf', hDE], hfd.congr_of_eventuallyEq hfg⟩
  rw [hfg.self_of_nhds, hv0, hvw]

/-- The real part of the increment quaternion is flat at the zero increment. -/
theorem cos_half_angle_tangent :
    HasTangentAtZero
      (fun δ => Real.cos (0.5 * Real.sqrt (δ 0 * δ 0 + δ 1 * δ 1 + δ 2 * δ 2))) 1
      (fun _ => 0) := by
  refine ⟨by simp, 0, fun _ => rfl, ?_⟩
  rw [hasFDerivAt_iff_isLittleO_nhds_zero]
  have hO : (fun h : Fin 6 → ℝ => Real.cos (0.5 * Real.sqrt (h 0 * h 0 + h 1 * h 1 + h 2 * h 2))
      - 1) =O[nhds 0] fun h => ‖h‖ ^ 2 := by
    apply Asymptotics.isBigO_of_le' (c := 1)
    intro h
    have hs : 0 ≤ h 0 * h 0 + h 1 * h 1 + h 2 * h 2 := by
      nlinarith [mul_self_nonneg (h 0), mul_self_nonneg (h 1), mul_self_nonneg (h 2)]
    have h0 : |h 0| ≤ ‖h‖ := norm_le_pi_norm h 0
    have h1 : |h 1| ≤ ‖h‖ := norm_le_pi_norm h 1
    have h2 : |h 2| ≤ ‖h‖ := norm_le_pi_norm h 2
    have hn : 0 ≤ ‖h‖ := norm_nonneg h
    have b0 : h 0 * h 0 ≤ ‖h‖ ^ 2 := by
      rw [← abs_mul_abs_self]; nlinarith [abs_nonneg (h 0)]
    have b1 : h 1 * h 1 ≤ ‖h‖ ^ 2 := by
      rw [← abs_mul_abs_self]; nlinarith [abs_nonneg (h 1)]
    have b2 : h 2 * h 2 ≤ ‖h‖ ^ 2 := by
      rw [← abs_mul_abs_self]; nlinarith [abs_nonneg (h 2)]
    have lo := Real.one_sub_sq_div_two_le_cos
      (x := 0.5 * Real.sqrt (h 0 * h 0 + h 1 * h 1 + h 2 * h 2))
    have hi := Real.cos_le_one (0.5 * Real.sqrt (h 0 * h 0 + h 1 * h 1 + h 2 * h 2))
    have sq : (0.5 * Real.sqrt (h 0 * h 0 + h 1 * h 1 + h 2 * h 2)) ^ 2
        = 0.25 * (h 0 * h 0 + h 1 * h 1 + h 2 * h 2) := by
      rw [mul_pow, Real.sq_sqrt hs]; norm_num
    rw [sq] at lo
    rw [Real.norm_eq_abs, Real.norm_eq_abs, abs_of_nonpos (by linarith),
      abs_of_nonneg (by positivity)]
    linarith
  have := hO.trans_isLittleO (@Asymptotics.isLittleO_norm_pow_id (Fin 6 → ℝ) _ 2 one_lt_two)
  simpa using this

/-- The value and the derivative may be replaced by equal ones. -/
theorem HasTangentAtZero.of_eq {f : (Fin 6 → ℝ) → ℝ} {v w : ℝ} {D E : (Fin 6 → ℝ) → ℝ}
    (hf : HasTangentAtZero f v D) (hvw : v = w) (hDE : ∀ δ, D δ = E δ) :
    HasTangentAtZero f w E :=
  hf.congr Filter.EventuallyEq.rfl hvw hDE

/-- Tangent of the transformed point when the pose with unit rotation `x` is composed on the
left with an increment quaternion `(w, a)` and translated by the image of `u`: if `w` is flat
with value 1 and `a`, `u` vanish at zero with derivatives `A`, `U`, the point moves by
`2 A × lp + U`. -/
theorem composed_point_tangent (x : Fin 7 → ℝ) (P : Vector3d ℝ)
    (hq : (Quaterniond.map x).squaredNorm = 1)
    (w a0 a1 a2 u0 u1 u2 A0 A1 A2 U0 U1 U2 : (Fin 6 → ℝ) → ℝ)
    (hw : HasTangentAtZero w 1 (fun _ => 0))
    (ha0 : HasTangentAtZero a0 0 A0) (ha1 : HasTangentAtZero a1 0 A1)
    (ha2 : HasTangentAtZero a2 0 A2)
    (hu0 : HasTangentAtZero u0 0 U0) (hu1 : HasTangentAtZero u1 0 U1)
    (hu2 : HasTangentAtZero u2 0 U2) (i : Fin 3) :
    HasTangentAtZero
      (fun δ => (((Quaterniond.ofWXYZ (w δ) (a0 δ) (a1 δ) (a2 δ)).mul
            (Quaterniond.map x)).transformVector P
          + ((Quaterniond.ofWXYZ (w δ) (a0 δ) (a1 δ) (a2 δ)).transformVector (translationMap x)
            + (Quaterniond.ofWXYZ (w δ) (a0 δ) (a1 δ) (a2 δ)).matrix.mulVec
                ![u0 δ, u1 δ, u2 δ])) i)
      (transformedPoint x P i)
      (fun δ => 2 * cross ![A0 δ, A1 δ, A2 δ] (transformedPoint x P) i + ![U0 δ, U1 δ, U2 δ] i) := by
  have hq' : x 0 * x 0 + x 1 * x 1 + x 2 * x 2 + x 3 * x 3 = 1 := hq
  fin_cases i
  all_goals
    apply HasTangentAtZero.of_eq
    · simp only [Quaterniond.mul, Quaterniond.ofWXYZ, Quaterniond.map,
        Quaterniond.transformVector, Quaterniond.vec, Quaterniond.matrix, cross, translationMap,
        Matrix.mulVec, Matrix.dotProduct, Fin.sum_univ_succ, Pi.add_apply, Pi.smul_apply,
        smul_eq_mul, Matrix.cons_val_zero, Matrix.cons_val_one, Matrix.head_cons,
        Matrix.cons_val_two, Matrix.tail_cons, Matrix.of_apply, Matrix.cons_val',
        Matrix.empty_val', Matrix.cons_val_fin_one, Matrix.cons_val_succ, Fin.succ_zero_eq_one,
        Fin.succ_one_eq_two, Finset.univ_eq_empty, Finset.sum_empty, add_zero, Fin.zero_eta,
        Fin.mk_one, Fin.reduceFinMk, Matrix.vecHead, Matrix.vecTail]
      repeat' first
        | exact hw
        | exact ha0
        | exact ha1
        | exact ha2
        | exact hu0
        | exact hu1
        | exact hu2
        | apply HasTangentAtZero.const
        | apply HasTangentAtZero.add
        | apply HasTangentAtZero.sub
        | apply HasTangentAtZero.mul
        | apply HasTangentAtZero.neg
    · simp [transformedPoint, Quaterniond.map, Quaterniond.transformVector, Quaterniond.vec,
        cross, translationMap, Matrix.vecHead, Matrix.vecTail]
      try ring
    · intro δ
      simp [transformedPoint, Quaterniond.map, Quaterniond.transformVector, Quaterniond.vec,
        cross, translationMap, Matrix.vecHead, Matrix.vecTail]
      first
        | linear_combination (2 * (A1 δ * P 2 - A2 δ * P 1)) * hq'
        | linear_combination (2 * (A2 δ * P 0 - A0 δ * P 2)) * hq'
        | linear_combination (2 * (A0 δ * P 1 - A1 δ * P 0)) * hq'

/-- Near the zero increment `getTransformFromSe3` runs its small-angle branch. -/
theorem eventually_small_angle :
    ∀ᶠ δ : Fin 6 → ℝ in nhds 0,
      norm (Libm.mk Real.sqrt Real.sin Real.cos) ![δ 0, δ 1, δ 2] < 1e-10 := by
  have hc : Continuous (fun δ : Fin 6 → ℝ =>
      norm (Libm.mk Real.sqrt Real.sin Real.cos) ![δ 0, δ 1, δ 2]) := by
    simp only [norm, dot, Matrix.cons_val_zero, Matrix.cons_val_one, Matrix.head_cons,
      Matrix.cons_val_two, Matrix.tail_cons]
    fun_prop
  have h0 : norm (Libm.mk Real.sqrt Real.sin Real.cos)
      ![(0 : Fin 6 → ℝ) 0, (0 : Fin 6 → ℝ) 1, (0 : Fin 6 → ℝ) 2] < 1e-10 := by
    simp [norm, dot]
    norm_num
  exact (hc.tendsto 0).eventually (gt_mem_nhds h0)

/-- Inside the small-angle branch `getTransformFromSe3` returns `smallAngleQuaternion` and
the image of `upsilon` under its matrix. -/
theorem getTransformFromSe3_small (δ : Fin 6 → ℝ)
    (h : norm (Libm.mk Real.sqrt Real.sin Real.cos) ![δ 0, δ 1, δ 2] < 1e-10) :
    getTransformFromSe3 (Libm.mk Real.sqrt Real.sin Real.cos) δ
      = (smallAngleQuaternion (Libm.mk Real.sqrt Real.sin Real.cos) δ,
         (smallAngleQuaternion (Libm.mk Real.sqrt Real.sin Real.cos) δ).matrix.mulVec
           ![δ 3, δ 4, δ 5]) := by
  have hs : norm (Libm.mk Real.sqrt Real.sin Real.cos) ![δ 0, δ 1, δ 2]
        * norm (Libm.mk Real.sqrt Real.sin Real.cos) ![δ 0, δ 1, δ 2]
      = δ 0 * δ 0 + δ 1 * δ 1 + δ 2 * δ 2 := by
    have := Real.mul_self_sqrt (dot_self_nonneg ![δ 0, δ 1, δ 2])
    simpa [norm, dot] using this
  have hn : norm (Libm.mk Real.sqrt Real.sin Real.cos) ![δ 0, δ 1, δ 2]
      = Real.sqrt (δ 0 * δ 0 + δ 1 * δ 1 + δ 2 * δ 2) := by
    simp [norm, dot]
  simp only [getTransformFromSe3, if_pos h, hs, smallAngleQuaternion]
  simp only [hn, Matrix.cons_val_zero, Matrix.cons_val_one, Matrix.head_cons,
      Matrix.cons_val_two, Matrix.tail_cons]

/-- The imaginary coefficients of `smallAngleQuaternion` vanish at zero with derivative
half the coordinate. -/
theorem imag_tangent (j : Fin 6) :
    HasTangentAtZero
      (fun δ => (0.5 - 0.0208333 * (δ 0 * δ 0 + δ 1 * δ 1 + δ 2 * δ 2)
        + 0.000260417 * ((δ 0 * δ 0 + δ 1 * δ 1 + δ 2 * δ 2)
          * (δ 0 * δ 0 + δ 1 * δ 1 + δ 2 * δ 2))) * δ j)
      0 (fun δ => 0.5 * δ j) := by
  apply HasTangentAtZero.of_eq
  · repeat' first
      | apply HasTangentAtZero.const
      | apply HasTangentAtZero.coord
      | apply HasTangentAtZero.sub
      | apply HasTangentAtZero.add
      | apply HasTangentAtZero.mul
  · norm_num
  · intro δ
    norm_num

/-- Tangent at the zero increment of the transformed point of the pose written by `Plus`:
the point moves by `omega × lp + upsilon`. -/
theorem transformedPoint_Plus_tangent (x : Fin 7 → ℝ) (P : Vector3d ℝ)
    (hq : (Quaterniond.map x).squaredNorm = 1) (i : Fin 3) :
    HasTangentAtZero
      (fun δ => transformedPoint
        (PoseSE3Parameterization.Plus (Libm.mk Real.sqrt Real.sin Real.cos) x δ).2 P i)
      (transformedPoint x P i)
      (fun δ => cross ![δ 0, δ 1, δ 2] (transformedPoint x P) i + ![δ 3, δ 4, δ 5] i) := by
  have key := composed_point_tangent x P hq _ _ _ _ _ _ _ _ _ _ _ _ _
    cos_half_angle_tangent (imag_tangent 0) (imag_tangent 1) (imag_tangent 2)
    (HasTangentAtZero.coord 3) (HasTangentAtZero.coord 4) (HasTangentAtZero.coord 5) i
  refine key.congr ?_ rfl ?_
  · filter_upwards [eventually_small_angle] with δ hδ
    simp only [transformedPoint, map_Plus, translationMap_Plus, getTransformFromSe3_small δ hδ]
    rfl
  · intro δ
    fin_cases i <;> simp [cross] <;> ring

/-- Tangent of the plane residual along a moving point. -/
theorem plane_tangent (l : (Fin 6 → ℝ) → Vector3d ℝ) (v : Vector3d ℝ)
    (L : (Fin 6 → ℝ) → Vector3d ℝ)
    (hl : ∀ i, HasTangentAtZero (fun δ => l δ i) (v i) (fun δ => L δ i))
    (n : Vector3d ℝ) (d : ℝ) :
    HasTangentAtZero (fun δ => dot n (l δ) + d) (dot n v + d) (fun δ => dot n (L δ)) := by
  simp only [dot]
  apply HasTangentAtZero.of_eq
  · repeat' first
      | exact hl 0
      | exact hl 1
      | exact hl 2
      | apply HasTangentAtZero.const
      | apply HasTangentAtZero.add
      | apply HasTangentAtZero.mul
  · ring
  · intro δ
    ring

/-- Last entry of a vector of six scalars. -/
theorem vec6_five (a b c d e f : ℝ) : (![a, b, c, d, e, f] : Fin 6 → ℝ) 5 = f := rfl

/-- The entries of the matrix that both `Evaluate` functions assemble in `dp_by_se3`. -/
theorem dp_by_se3_entries (p : Vector3d ℝ) :
    setBlock33 (setBlock33 (0 : Matrix (Fin 3) (Fin 6) ℝ) 0 (-skew p)) 3 1
      = !![0, p 2, -p 1, 1, 0, 0; -p 2, 0, p 0, 0, 1, 0; p 1, -p 0, 0, 0, 0, 1] := by
  ext i k
  fin_cases i <;> fin_cases k <;> simp [setBlock33, skew_eq, Matrix.one_apply] <;> rfl

/-- The matrix `dp_by_se3` is the block row `[-skew(p) | I₃]`. -/
theorem dp_by_se3_eq (p : Vector3d ℝ) :
    setBlock33 (setBlock33 (0 : Matrix (Fin 3) (Fin 6) ℝ) 0 (-skew p)) 3 1
      = (Matrix.fromColumns (-skew p) (1 : Matrix3d ℝ)).submatrix id finSumFinEquiv.symm := by
  ext i k
  refine @Fin.addCases 3 3
    (fun k => setBlock33 (setBlock33 (0 : Matrix (Fin 3) (Fin 6) ℝ) 0 (-skew p)) 3 1 i k
      = (Matrix.fromColumns (-skew p) (1 : Matrix3d ℝ)).submatrix id finSumFinEquiv.symm i k)
    (fun j => ?_) (fun j => ?_) k
  · have hj := j.isLt
    have h1 : ¬ (3 ≤ j.val) := by omega
    beta_reduce
    rw [Matrix.submatrix_apply, finSumFinEquiv_symm_apply_castAdd, Matrix.fromColumns_apply_inl]
    simp [setBlock33, h1, hj]
  · have hj := j.isLt
    beta_reduce
    rw [Matrix.submatrix_apply, finSumFinEquiv_symm_apply_natAdd, Matrix.fromColumns_apply_inr]
    have h2 : 3 ≤ (Fin.natAdd 3 j).val ∧ (Fin.natAdd 3 j).val < 3 + 3 := by
      simp only [Fin.coe_natAdd]; omega
    have h3 : ∀ h, (⟨(Fin.natAdd 3 j).val - 3, h⟩ : Fin 3) = j := fun h => Fin.ext (by simp)
    simp only [setBlock33, dif_pos h2]
    rw [h3]
    rfl

/-- C2: for every pose whose rotation is a unit quaternion and every `P`, `n`, `d`, the first
six entries of the Jacobian row written by `SurfNormAnalyticCostFunction::Evaluate` are
`nᵗ·[−skew(pw) | I₃]` with `pw = q·P + t`, and the linear map `delta ↦ Σ J_k·delta_k` they define
is the Fréchet derivative at `delta = 0` of `delta ↦` (plane residual evaluated at
`Plus(pose, delta)`). -/
theorem surf_jacobian_is_derivative (c : SurfNormAnalyticCostFunction ℝ) (x J0 : Fin 7 → ℝ)
    (hq : (Quaterniond.map x).squaredNorm = 1) :
    ∃ J : Fin 7 → ℝ,
      (c.Evaluate x (some (some J0))).jacobians = some (some J) ∧
      (∀ k : Fin 6, J k.castSucc = Matrix.vecMul c.plane_unit_norm
        ((Matrix.fromColumns (-skew (transformedPoint x c.curr_point))
          (1 : Matrix3d ℝ)).submatrix id finSumFinEquiv.symm) k) ∧
      ∃ f' : (Fin 6 → ℝ) →L[ℝ] ℝ, (∀ δ, f' δ = ∑ k : Fin 6, J k.castSucc * δ k) ∧
        HasFDerivAt (fun δ => (c.Evaluate
          (PoseSE3Parameterization.Plus (Libm.mk Real.sqrt Real.sin Real.cos) x δ).2
          none).residual) f' 0 := by
  obtain ⟨_, f', hf', hfd⟩ := plane_tangent
    (fun δ => transformedPoint
      (PoseSE3Parameterization.Plus (Libm.mk Real.sqrt Real.sin Real.cos) x δ).2 c.curr_point)
    (transformedPoint x c.curr_point)
    (fun δ => cross ![δ 0, δ 1, δ 2] (transformedPoint x c.curr_point) + ![δ 3, δ 4, δ 5])
    (fun i => transformedPoint_Plus_tangent x c.curr_point hq i)
    c.plane_unit_norm c.negative_OA_dot_norm
  refine ⟨_, rfl, ?_, f', ?_, hfd⟩
  · intro k
    rw [← dp_by_se3_eq]
    simp [setBlock16, transformedPoint]
  · intro δ
    rw [hf']
    generalize hp : transformedPoint x c.curr_point = p
    have hp' : (Quaterniond.map x).transformVector c.curr_point + translationMap x = p := hp
    simp only [hp', dp_by_se3_entries, setBlock16]
    simp [Fin.sum_univ_six, Fin.sum_univ_three, dot, cross, Matrix.vecMul, Matrix.dotProduct,
      vec6_five]
    ring

/-- Tangent of the squared length of `nu = (l − A) × (l − B)` along a moving point. -/
theorem nu_sq_tangent (l : (Fin 6 → ℝ) → Vector3d ℝ) (v : Vector3d ℝ)
    (L : (Fin 6 → ℝ) → Vector3d ℝ)
    (hl : ∀ i, HasTangentAtZero (fun δ => l δ i) (v i) (fun δ => L δ i))
    (A B : Vector3d ℝ) :
    HasTangentAtZero (fun δ => dot (cross (l δ - A) (l δ - B)) (cross (l δ - A) (l δ - B)))
      (dot (cross (v - A) (v - B)) (cross (v - A) (v - B)))
      (fun δ => 2 * dot (cross (v - A) (v - B)) (cross (L δ) (A - B))) := by
  simp only [dot, cross, Pi.sub_apply, Matrix.cons_val_zero, Matrix.cons_val_one,
    Matrix.head_cons, Matrix.cons_val_two, Matrix.tail_cons]
  apply HasTangentAtZero.of_eq
  · repeat' first
      | exact hl 0
      | exact hl 1
      | exact hl 2
      | apply HasTangentAtZero.const
      | apply HasTangentAtZero.sub
      | apply HasTangentAtZero.add
      | apply HasTangentAtZero.mul
  · ring
  · intro δ
    ring

/-- Tangent of the edge residual along a moving point that is off the line. -/
theorem edge_tangent (l : (Fin 6 → ℝ) → Vector3d ℝ) (v : Vector3d ℝ)
    (L : (Fin 6 → ℝ) → Vector3d ℝ)
    (hl : ∀ i, HasTangentAtZero (fun δ => l δ i) (v i) (fun δ => L δ i))
    (A B : Vector3d ℝ)
    (hnu : dot (cross (v - A) (v - B)) (cross (v - A) (v - B)) ≠ 0) :
    HasTangentAtZero
      (fun δ => norm (Libm.mk Real.sqrt Real.sin Real.cos) (cross (l δ - A) (l δ - B))
        / norm (Libm.mk Real.sqrt Real.sin Real.cos) (A - B))
      (norm (Libm.mk Real.sqrt Real.sin Real.cos) (cross (v - A) (v - B))
        / norm (Libm.mk Real.sqrt Real.sin Real.cos) (A - B))
      (fun δ => dot (cross (v - A) (v - B)) (cross (L δ) (A - B))
        / norm (Libm.mk Real.sqrt Real.sin Real.cos) (cross (v - A) (v - B))
        / norm (Libm.mk Real.sqrt Real.sin Real.cos) (A - B)) := by
  refine (((nu_sq_tangent l v L hl A B).sqrt hnu).div_const _).of_eq rfl ?_
  intro δ
  simp only [norm]
  have hr : Real.sqrt (dot (cross (v - A) (v - B)) (cross (v - A) (v - B))) ≠ 0 :=
    fun h => hnu ((Real.sqrt_eq_zero (dot_self_nonneg _)).mp h)
  field_simp
  ring

/-- A point off the line through `A ≠ B` has `nu ≠ 0`. -/
theorem nu_ne_zero_of_off_line (p A B : Vector3d ℝ) (hab : A ≠ B)
    (hline : ∀ s : ℝ, p ≠ A + s • (B - A)) :
    dot (cross (p - A) (p - B)) (cross (p - A) (p - B)) ≠ 0 := by
  intro h0
  have hq := edge_quotient_eq p A B hab
  rw [h0, zero_div] at hq
  have hne := hline (dot (p - A) (B - A) / dot (A - B) (A - B))
  have hpos := dot_self_pos_of_ne _ _ hne
  linarith

/-- C1: for every pose whose rotation is a unit quaternion and every `P`, `A`, `B` with `A ≠ B`
and `lp = q·P + t` not on the line through `A` and `B`, the first six entries of the Jacobian
row written by `EdgeAnalyticCostFunction::Evaluate` are
`−(nuᵗ/‖nu‖)·skew(de)·[−skew(lp) | I₃]/‖de‖`, and the linear map `delta ↦ Σ J_k·delta_k` they
define is the Fréchet derivative at `delta = 0` of `delta ↦` (edge residual evaluated at
`Plus(pose, delta)`). -/
theorem edge_jacobian_is_derivative (c : EdgeAnalyticCostFunction ℝ) (x J0 : Fin 7 → ℝ)
    (hq : (Quaterniond.map x).squaredNorm = 1)
    (hab : c.last_point_a ≠ c.last_point_b)
    (hline : ∀ s : ℝ, transformedPoint x c.curr_point
      ≠ c.last_point_a + s • (c.last_point_b - c.last_point_a)) :
    ∃ J : Fin 7 → ℝ,
      (c.Evaluate (Libm.mk Real.sqrt Real.sin Real.cos) x (some (some J0))).jacobians
        = some (some J) ∧
      (∀ k : Fin 6, J k.castSucc =
        Matrix.vecMul (Matrix.vecMul
          (-(fun i => cross (transformedPoint x c.curr_point - c.last_point_a)
                (transformedPoint x c.curr_point - c.last_point_b) i
              / norm (Libm.mk Real.sqrt Real.sin Real.cos)
                  (cross (transformedPoint x c.curr_point - c.last_point_a)
                    (transformedPoint x c.curr_point - c.last_point_b))))
          (skew (c.last_point_a - c.last_point_b)))
          ((Matrix.fromColumns (-skew (transformedPoint x c.curr_point))
            (1 : Matrix3d ℝ)).submatrix id finSumFinEquiv.symm) k
        / norm (Libm.mk Real.sqrt Real.sin Real.cos) (c.last_point_a - c.last_point_b)) ∧
      ∃ f' : (Fin 6 → ℝ) →L[ℝ] ℝ, (∀ δ, f' δ = ∑ k : Fin 6, J k.castSucc * δ k) ∧
        HasFDerivAt (fun δ => (c.Evaluate (Libm.mk Real.sqrt Real.sin Real.cos)
          (PoseSE3Parameterization.Plus (Libm.mk Real.sqrt Real.sin Real.cos) x δ).2
          none).residual) f' 0 := by
  obtain ⟨_, f', hf', hfd⟩ := edge_tangent
    (fun δ => transformedPoint
      (PoseSE3Parameterization.Plus (Libm.mk Real.sqrt Real.sin Real.cos) x δ).2 c.curr_point)
    (transformedPoint x c.curr_point)
    (fun δ => cross ![δ 0, δ 1, δ 2] (transformedPoint x c.curr_point) + ![δ 3, δ 4, δ 5])
    (fun i => transformedPoint_Plus_tangent x c.curr_point hq i)
    c.last_point_a c.last_point_b (nu_ne_zero_of_off_line _ _ _ hab hline)
  have hrow : ∀ (nu : Vector3d ℝ) (r : ℝ), (fun i => (-nu) i / r) = -(fun i => nu i / r) := by
    intro nu r
    funext i
    simp [neg_div]
  refine ⟨_, rfl, ?_, f', ?_, hfd⟩
  · intro k
    rw [← dp_by_se3_eq, ← hrow]
    simp only [setBlock16, Fin.coe_castSucc, k.isLt, dite_true, Fin.eta]
    rfl
  · intro δ
    rw [hf']
    have hp' : (Quaterniond.map x).transformVector c.curr_point + translationMap x
        = transformedPoint x c.curr_point := rfl
    simp only [hp', dp_by_se3_entries, setBlock16]
    generalize transformedPoint x c.curr_point = p
    generalize norm (Libm.mk Real.sqrt Real.sin Real.cos)
      (cross (p - c.last_point_a) (p - c.last_point_b)) = r
    generalize norm (Libm.mk Real.sqrt Real.sin Real.cos)
      (c.last_point_a - c.last_point_b) = m
    generalize cross (p - c.last_point_a) (p - c.last_point_b) = nu
    generalize c.last_point_a - c.last_point_b = de
    simp only [skew_eq]
    simp [Fin.sum_univ_six, Fin.sum_univ_three, dot, cross, Matrix.vecMul, Matrix.dotProduct,
      vec6_five, div_eq_mul_inv]
    ring

/-! ## The theorems at concrete inputs -/

/-- Sixth entry of a buffer of seven scalars. -/
theorem vec7_five (a b c d e f g : ℝ) : (![a, b, c, d, e, f, g] : Fin 7 → ℝ) 5 = f := rfl

/-- The points `(0,0,0)` and `(1,0,0)` differ. -/
theorem origin_ne_unit_x : (![0, 0, 0] : Vector3d ℝ) ≠ ![1, 0, 0] := by
  intro h
  have := congrFun h 0
  simp at this

/-- The identity pose has a unit rotation. -/
theorem identity_pose_unit :
    (Quaterniond.map (![0, 0, 0, 1, 0, 0, 0] : Fin 7 → ℝ)).squaredNorm = 1 := by
  simp [Quaterniond.map, Quaterniond.squaredNorm]

/-- At the identity pose the point `(0,1,0)` is off the line through `(0,0,0)` and
`(1,0,0)`. -/
theorem unit_y_off_x_axis (s : ℝ) :
    transformedPoint (![0, 0, 0, 1, 0, 0, 0] : Fin 7 → ℝ) ![0, 1, 0]
      ≠ ![0, 0, 0] + s • (![1, 0, 0] - ![0, 0, 0]) := by
  intro h
  have := congrFun h 1
  simp [transformedPoint, Quaterniond.map, Quaterniond.transformVector, Quaterniond.vec, cross,
    translationMap, vec7_five] at this

/-- C1 at the identity pose with `P = (0,1,0)`, `A = (0,0,0)`, `B = (1,0,0)`. -/
theorem edge_jacobian_is_derivative_witness :
    ∃ J : Fin 7 → ℝ,
      ((EdgeAnalyticCostFunction.mk ![0, 1, 0] ![0, 0, 0] ![1, 0, 0]).Evaluate
        (Libm.mk Real.sqrt Real.sin Real.cos) ![0, 0, 0, 1, 0, 0, 0] (some (some 0))).jacobians
        = some (some J) ∧
      ∃ f' : (Fin 6 → ℝ) →L[ℝ] ℝ, (∀ δ, f' δ = ∑ k : Fin 6, J k.castSucc * δ k) ∧
        HasFDerivAt (fun δ => ((EdgeAnalyticCostFunction.mk ![0, 1, 0] ![0, 0, 0]
          ![1, 0, 0]).Evaluate (Libm.mk Real.sqrt Real.sin Real.cos)
          (PoseSE3Parameterization.Plus (Libm.mk Real.sqrt Real.sin Real.cos)
            ![0, 0, 0, 1, 0, 0, 0] δ).2 none).residual) f' 0 := by
  obtain ⟨J, h1, _, h3⟩ := edge_jacobian_is_derivative
    (EdgeAnalyticCostFunction.mk ![0, 1, 0] ![0, 0, 0] ![1, 0, 0]) ![0, 0, 0, 1, 0, 0, 0] 0
    identity_pose_unit origin_ne_unit_x unit_y_off_x_axis
  exact ⟨J, h1, h3⟩

/-- C2 at the identity pose with `P = (1,2,3)`, `n = (0,0,1)`, `d = 0`. -/
theorem surf_jacobian_is_derivative_witness :
    ∃ J : Fin 7 → ℝ,
      ((SurfNormAnalyticCostFunction.mk ![1, 2, 3] ![0, 0, 1] 0).Evaluate
        ![0, 0, 0, 1, 0, 0, 0] (some (some 0))).jacobians = some (some J) ∧
      ∃ f' : (Fin 6 → ℝ) →L[ℝ] ℝ, (∀ δ, f' δ = ∑ k : Fin 6, J k.castSucc * δ k) ∧
        HasFDerivAt (fun δ => ((SurfNormAnalyticCostFunction.mk ![1, 2, 3] ![0, 0, 1]
          0).Evaluate (PoseSE3Parameterization.Plus (Libm.mk Real.sqrt Real.sin Real.cos)
            ![0, 0, 0, 1, 0, 0, 0] δ).2 none).residual) f' 0 := by
  obtain ⟨J, h1, _, h3⟩ := surf_jacobian_is_derivative
    (SurfNormAnalyticCostFunction.mk ![1, 2, 3] ![0, 0, 1] 0) ![0, 0, 0, 1, 0, 0, 0] 0
    identity_pose_unit
  exact ⟨J, h1, h3⟩

/-- C3 at the identity pose with `P = (0,1,0)`, `A = (0,0,0)`, `B = (1,0,0)`. -/
theorem edge_residual_is_distance_witness :
    (![0, 0, 0] : Vector3d ℝ) ≠ ![1, 0, 0] ∧
    IsLeast {d : ℝ | ∃ s : ℝ, d = norm (Libm.mk Real.sqrt Real.sin Real.cos)
        ((Quaterniond.map ![0, 0, 0, 1, 0, 0, 0]).transformVector ![0, 1, 0]
          + translationMap ![0, 0, 0, 1, 0, 0, 0]
          - (![0, 0, 0] + s • (![1, 0, 0] - ![0, 0, 0])))}
      ((EdgeAnalyticCostFunction.mk ![0, 1, 0] ![0, 0, 0] ![1, 0, 0]).Evaluate
        (Libm.mk Real.sqrt Real.sin Real.cos) ![0, 0, 0, 1, 0, 0, 0] none).residual :=
  ⟨origin_ne_unit_x,
    (edge_residual_is_distance (EdgeAnalyticCostFunction.mk ![0, 1, 0] ![0, 0, 0] ![1, 0, 0])
      ![0, 0, 0, 1, 0, 0, 0] none origin_ne_unit_x).2.1⟩

/-- C4 at the identity pose with `P = (1,2,3)`, `n = (0,0,1)`, `d = 0`. -/
theorem surf_residual_is_signed_distance_witness :
    norm (Libm.mk Real.sqrt Real.sin Real.cos) (![0, 0, 1] : Vector3d ℝ) = 1 ∧
    IsLeast {δ : ℝ | ∃ y : Vector3d ℝ, dot ![0, 0, 1] y + 0 = 0 ∧
        δ = norm (Libm.mk Real.sqrt Real.sin Real.cos)
          ((Quaterniond.map ![0, 0, 0, 1, 0, 0, 0]).transformVector ![1, 2, 3]
            + translationMap ![0, 0, 0, 1, 0, 0, 0] - y)}
      |((SurfNormAnalyticCostFunction.mk ![1, 2, 3] ![0, 0, 1] 0).Evaluate
        ![0, 0, 0, 1, 0, 0, 0] none).residual| :=
  ⟨by simp [norm, dot],
    (surf_residual_is_signed_distance (SurfNormAnalyticCostFunction.mk ![1, 2, 3] ![0, 0, 1] 0)
      ![0, 0, 0, 1, 0, 0, 0] none (by simp [norm, dot])).2.1⟩

/-! ## Further properties of the two `Evaluate` functions -/

section Algebra

variable [LinearOrderedField α]

/-- After `setZero()` and the assignment of the first six entries the seventh is zero. -/
theorem seventh_entry_setBlock16 (r : Fin 6 → α) : setBlock16 (fun _ => (0 : α)) r 6 = 0 := by
  have h6 : ¬ ((6 : Fin 7).val < 6) := by decide
  simp only [setBlock16, dif_neg h6]

/-- C11: whenever a Jacobian is requested, for every pose and every observation, the seventh
entry of the Jacobian row written by `EdgeAnalyticCostFunction::Evaluate` and by
`SurfNormAnalyticCostFunction::Evaluate` is exactly 0. -/
theorem jacobian_seventh_entry_zero (e : EdgeAnalyticCostFunction α)
    (s : SurfNormAnalyticCostFunction α) (L : Libm α) (parameters J0 : Fin 7 → α) :
    (∃ J, (e.Evaluate L parameters (some (some J0))).jacobians = some (some J) ∧ J 6 = 0) ∧
    (∃ J, (s.Evaluate parameters (some (some J0))).jacobians = some (some J) ∧ J 6 = 0) :=
  ⟨⟨_, rfl, seventh_entry_setBlock16 _⟩, ⟨_, rfl, seventh_entry_setBlock16 _⟩⟩

/-- The cross product is antisymmetric. -/
theorem cross_swap (a b : Vector3d α) : cross b a = -cross a b := by
  funext i
  fin_cases i <;> simp [cross] <;> ring

/-- Negating a vector does not change its squared length. -/
theorem dot_neg_neg (v : Vector3d α) : dot (-v) (-v) = dot v v := by
  simp [dot]

/-- Negating a vector does not change its `norm`. -/
theorem norm_neg (L : Libm α) (v : Vector3d α) : norm L (-v) = norm L v := by
  simp only [norm, dot_neg_neg]

/-- The map `skew` commutes with negation. -/
theorem skew_neg (v : Vector3d α) : skew (-v) = -skew v := by
  rw [skew_eq, skew_eq]
  ext i j
  fin_cases i <;> fin_cases j <;> simp

/-- C18: for every pose and every `P`, `A`, `B`, `EdgeAnalyticCostFunction` built with the
endpoints swapped, `(P, B, A)`, gives from `Evaluate` the same result as `(P, A, B)`: the same
residual and, when a Jacobian is requested, the same row of seven entries. -/
theorem Evaluate_swap_endpoints (P A B : Vector3d α) (L : Libm α) (parameters : Fin 7 → α)
    (jacobians : Option (Option (Fin 7 → α))) :
    (EdgeAnalyticCostFunction.mk P B A).Evaluate L parameters jacobians
        = (EdgeAnalyticCostFunction.mk P A B).Evaluate L parameters jacobians
    ∧ ((EdgeAnalyticCostFunction.mk P B A).Evaluate L parameters jacobians).residual
        = ((EdgeAnalyticCostFunction.mk P A B).Evaluate L parameters jacobians).residual
    ∧ ∀ J0 : Fin 7 → α, ∃ J,
        ((EdgeAnalyticCostFunction.mk P B A).Evaluate L parameters (some (some J0))).jacobians
          = some (some J) ∧
        ((EdgeAnalyticCostFunction.mk P A B).Evaluate L parameters (some (some J0))).jacobians
          = some (some J) := by
  have key : ∀ jac, (EdgeAnalyticCostFunction.mk P B A).Evaluate L parameters jac
        = (EdgeAnalyticCostFunction.mk P A B).Evaluate L parameters jac := by
    intro jac
    have hde : B - A = -(A - B) := by simp
    have hnu : ∀ lp : Vector3d α, cross (lp - B) (lp - A) = -cross (lp - A) (lp - B) :=
      fun lp => cross_swap _ _
    have hrow : ∀ (nu : Vector3d α) (r : α) (S : Matrix3d α),
        Matrix.vecMul (fun i => (- -nu) i / r) (-S) = Matrix.vecMul (fun i => (-nu) i / r) S := by
      intro nu r S
      rw [Matrix.vecMul_neg]
      funext i
      simp [Matrix.vecMul, Matrix.dotProduct, neg_div]
    rcases jac with _ | _ | J0 <;>
      simp only [EdgeAnalyticCostFunction.Evaluate, hde, hnu, norm_neg, skew_neg, hrow]
  exact ⟨key _, congrArg EvaluateResult.residual (key _), fun J0 => ⟨_, rfl, (congrArg EvaluateResult.jacobians (key _)).symm⟩⟩

/-- C13: for every `P`, `n`, `d`, `SurfNormAnalyticCostFunction::Evaluate` at the identity pose
`(0,0,0,1,0,0,0)` returns the residual `n·P + d`; for `n = (0,0,1)`, `d = 0`, `P = (1,2,3)` it
is 3. -/
theorem surf_residual_identity_pose (c : SurfNormAnalyticCostFunction α)
    (jacobians : Option (Option (Fin 7 → α))) :
    (c.Evaluate ![0, 0, 0, 1, 0, 0, 0] jacobians).residual
        = dot c.plane_unit_norm c.curr_point + c.negative_OA_dot_norm
    ∧ ((SurfNormAnalyticCostFunction.mk ![1, 2, 3] ![0, 0, 1] (0 : α)).Evaluate
        ![0, 0, 0, 1, 0, 0, 0] jacobians).residual = 3 := by
  have h5 : (![0, 0, 0, 1, 0, 0, 0] : Fin 7 → α) 5 = 0 := rfl
  have h6 : (![0, 0, 0, 1, 0, 0, 0] : Fin 7 → α) 6 = 0 := rfl
  constructor
  · simp [SurfNormAnalyticCostFunction.Evaluate, Quaterniond.map, Quaterniond.transformVector,
      Quaterniond.vec, cross, translationMap, dot, h5, h6, Matrix.vecHead, Matrix.vecTail]
  · simp [SurfNormAnalyticCostFunction.Evaluate, Quaterniond.map, Quaterniond.transformVector,
      Quaterniond.vec, cross, translationMap, dot, h5, h6]

end Algebra

/-! ## The edge residual on the line -/

/-- A point of the line through `A` and `B` has `nu = 0`. -/
theorem nu_zero_of_on_line (p A B : Vector3d ℝ) (s : ℝ) (h : p = A + s • (B - A)) :
    dot (cross (p - A) (p - B)) (cross (p - A) (p - B)) = 0 := by
  subst h
  simp [dot, cross]
  ring

/-- The identity pose leaves every point where it is. -/
theorem transformedPoint_identity (P : Vector3d ℝ) :
    transformedPoint (![0, 0, 0, 1, 0, 0, 0] : Fin 7 → ℝ) P = P := by
  have h6 : (![0, 0, 0, 1, 0, 0, 0] : Fin 7 → ℝ) 6 = 0 := rfl
  funext i
  fin_cases i <;>
    simp [transformedPoint, Quaterniond.map, Quaterniond.transformVector, Quaterniond.vec, cross,
      translationMap, vec7_five, h6] <;> rfl

/-- C12, amended: for every pose and every `A ≠ B`, the residual of
`EdgeAnalyticCostFunction::Evaluate` is 0 exactly when the transformed point `lp = q·P + t`
lies on the line through `A` and `B`; at the identity pose it is 0 whenever `P` lies on that
line. -/
theorem edge_residual_zero_iff (c : EdgeAnalyticCostFunction ℝ) (parameters : Fin 7 → ℝ)
    (jacobians : Option (Option (Fin 7 → ℝ)))
    (hab : c.last_point_a ≠ c.last_point_b) :
    ((c.Evaluate (Libm.mk Real.sqrt Real.sin Real.cos) parameters jacobians).residual = 0
      ↔ ∃ s : ℝ, transformedPoint parameters c.curr_point
          = c.last_point_a + s • (c.last_point_b - c.last_point_a))
    ∧ ((∃ s : ℝ, c.curr_point = c.last_point_a + s • (c.last_point_b - c.last_point_a)) →
      (c.Evaluate (Libm.mk Real.sqrt Real.sin Real.cos) ![0, 0, 0, 1, 0, 0, 0]
        jacobians).residual = 0) := by
  have hD := dot_self_pos_of_ne _ _ hab
  have hm : Real.sqrt (dot (c.last_point_a - c.last_point_b)
      (c.last_point_a - c.last_point_b)) ≠ 0 :=
    fun h => (ne_of_gt hD) ((Real.sqrt_eq_zero (le_of_lt hD)).mp h)
  have key : ∀ x : Fin 7 → ℝ,
      ((c.Evaluate (Libm.mk Real.sqrt Real.sin Real.cos) x jacobians).residual = 0
        ↔ ∃ s : ℝ, transformedPoint x c.curr_point
            = c.last_point_a + s • (c.last_point_b - c.last_point_a)) := by
    intro x
    show norm _ (cross (transformedPoint x c.curr_point - c.last_point_a)
        (transformedPoint x c.curr_point - c.last_point_b)) / norm _ _ = 0 ↔ _
    simp only [norm]
    rw [div_eq_zero_iff, or_iff_left hm, Real.sqrt_eq_zero (dot_self_nonneg _)]
    constructor
    · intro h0
      by_contra hno
      push_neg at hno
      exact nu_ne_zero_of_off_line _ _ _ hab hno h0
    · rintro ⟨s, hs⟩
      exact nu_zero_of_on_line _ _ _ s hs
  refine ⟨key parameters, ?_⟩
  rintro ⟨s, hs⟩
  exact (key _).mpr ⟨s, by rw [transformedPoint_identity]; exact hs⟩

/-- C12, as stated, fails: with `A = (0,0,0)`, `B = (1,0,0)` and `P = (0.5,0,0)` on the line,
the pose with identity rotation and translation `(0,1,0)` gives residual 1. -/
theorem edge_residual_on_line_counterexample :
    (Quaterniond.map (![0, 0, 0, 1, 0, 1, 0] : Fin 7 → ℝ)).squaredNorm = 1 ∧
    (![0, 0, 0] : Vector3d ℝ) ≠ ![1, 0, 0] ∧
    (∃ s : ℝ, (![0.5, 0, 0] : Vector3d ℝ) = ![0, 0, 0] + s • (![1, 0, 0] - ![0, 0, 0])) ∧
    ((EdgeAnalyticCostFunction.mk ![0.5, 0, 0] ![0, 0, 0] ![1, 0, 0]).Evaluate
      (Libm.mk Real.sqrt Real.sin Real.cos) ![0, 0, 0, 1, 0, 1, 0] none).residual = 1 ∧
    ((EdgeAnalyticCostFunction.mk ![0.5, 0, 0] ![0, 0, 0] ![1, 0, 0]).Evaluate
      (Libm.mk Real.sqrt Real.sin Real.cos) ![0, 0, 0, 1, 0, 1, 0] none).residual ≠ 0 := by
  have h6 : (![0, 0, 0, 1, 0, 1, 0] : Fin 7 → ℝ) 6 = 0 := rfl
  have hr : ((EdgeAnalyticCostFunction.mk ![0.5, 0, 0] ![0, 0, 0] ![1, 0, 0]).Evaluate
      (Libm.mk Real.sqrt Real.sin Real.cos) ![0, 0, 0, 1, 0, 1, 0] none).residual = 1 := by
    simp [EdgeAnalyticCostFunction.Evaluate, Quaterniond.map, Quaterniond.transformVector,
      Quaterniond.vec, cross, translationMap, norm, dot, vec7_five, h6]
  refine ⟨by simp [Quaterniond.map, Quaterniond.squaredNorm], origin_ne_unit_x, ⟨0.5, ?_⟩, hr, ?_⟩
  · funext i
    fin_cases i <;> simp
  · rw [hr]
    norm_num

/-- C12, amended, at the identity pose with `A = (0,0,0)`, `B = (1,0,0)`, `P = (0.5,0,0)`. -/
theorem edge_residual_zero_iff_witness :
    ((EdgeAnalyticCostFunction.mk ![0.5, 0, 0] ![0, 0, 0] ![1, 0, 0]).Evaluate
      (Libm.mk Real.sqrt Real.sin Real.cos) ![0, 0, 0, 1, 0, 0, 0] none).residual = 0 :=
  (edge_residual_zero_iff (EdgeAnalyticCostFunction.mk ![0.5, 0, 0] ![0, 0, 0] ![1, 0, 0])
    ![0, 0, 0, 1, 0, 0, 0] none origin_ne_unit_x).2
    ⟨0.5, by funext i; fin_cases i <;> simp⟩

/-! ## The two branches of `getTransformFromSe3` -/

/-- The quaternion of `getTransformFromSe3` is built from the scale of the branch taken. -/
theorem getTransformFromSe3_fst {α : Type} [LinearOrderedField α] (L : Libm α) (se3 : Fin 6 → α) :
    (getTransformFromSe3 L se3).1
      = quaternionOfImagFactor L
          (if norm L ![se3 0, se3 1, se3 2] < 1e-10
            then imagFactorSeries (norm L ![se3 0, se3 1, se3 2])
            else imagFactorClosedForm L (norm L ![se3 0, se3 1, se3 2])) se3 := rfl

/-- The two imaginary scales differ by at most `1e-9` for `0 < θ ≤ 1e-9`. -/
theorem imagFactor_branches_close (θ : ℝ) (h0 : 0 < θ) (h1 : θ ≤ 1e-9) :
    |imagFactorSeries θ - imagFactorClosedForm (Libm.mk Real.sqrt Real.sin Real.cos) θ|
      ≤ 1e-9 := by
  have h1' : θ ≤ 1 / 10 ^ 9 := by norm_num at h1 ⊢; exact h1
  have hx : |0.5 * θ| ≤ 1 := by
    rw [abs_of_pos (by positivity)]
    linarith
  have hb := Real.sin_bound hx
  rw [abs_of_pos (by positivity : (0 : ℝ) < 0.5 * θ), abs_le] at hb
  have p2 : θ ^ 2 ≤ 1 := by nlinarith
  have p3 : θ ^ 3 ≤ θ ^ 2 := by nlinarith [sq_nonneg θ]
  have p4 : θ ^ 4 ≤ θ ^ 2 := by nlinarith [sq_nonneg θ, sq_nonneg (θ ^ 2)]
  have p2' : θ ^ 2 ≤ 1 / 10 ^ 18 := by nlinarith
  have e : imagFactorSeries θ - imagFactorClosedForm (Libm.mk Real.sqrt Real.sin Real.cos) θ
      = ((0.5 - 0.0208333 * θ ^ 2 + 0.000260417 * θ ^ 4) * θ - Real.sin (0.5 * θ)) / θ := by
    simp only [imagFactorSeries, imagFactorClosedForm]
    rw [eq_div_iff (ne_of_gt h0), sub_mul, div_mul_cancel₀ _ (ne_of_gt h0)]
    ring
  rw [e, abs_div, abs_of_pos h0, div_le_iff₀ h0, abs_le]
  have q5 : θ ^ 5 = θ * θ ^ 4 := by ring
  have q4 : (0.5 * θ) ^ 4 = θ * (θ ^ 3 / 16) := by ring
  have q3 : (0.5 * θ) ^ 3 = θ * (θ ^ 2 / 8) := by ring
  have m3 : 0 ≤ θ * θ ^ 3 := by positivity
  have m2 : 0 ≤ θ * θ ^ 2 := by positivity
  have m4 : 0 ≤ θ * θ ^ 4 := by positivity
  have n3 : θ * θ ^ 3 ≤ θ * (1 / 10 ^ 18) := by
    apply mul_le_mul_of_nonneg_left (le_trans p3 p2') (le_of_lt h0)
  have n2 : θ * θ ^ 2 ≤ θ * (1 / 10 ^ 18) := by
    apply mul_le_mul_of_nonneg_left p2' (le_of_lt h0)
  have n4 : θ * θ ^ 4 ≤ θ * (1 / 10 ^ 18) := by
    apply mul_le_mul_of_nonneg_left (le_trans p4 p2') (le_of_lt h0)
  rw [q4, q3] at hb
  constructor
  · norm_num at hb ⊢
    nlinarith [hb.1, hb.2]
  · norm_num at hb ⊢
    nlinarith [hb.1, hb.2]

/-- Each coefficient of a vector is bounded by its `norm`. -/
theorem abs_le_norm (v : Vector3d ℝ) (i : Fin 3) :
    |v i| ≤ norm (Libm.mk Real.sqrt Real.sin Real.cos) v := by
  apply Real.abs_le_sqrt
  fin_cases i <;> simp [dot] <;>
    nlinarith [mul_self_nonneg (v 0), mul_self_nonneg (v 1), mul_self_nonneg (v 2)]

/-- C14: for every rotation angle `0 < θ ≤ 1e-9`, the small-angle scale
`0.5 − 0.0208333·θ² + 0.000260417·θ⁴` of `getTransformFromSe3` differs from the closed-form
scale `sin(θ/2)/θ` by at most `1e-9`; and for every increment with `‖omega‖ = θ` the quaternion
of `getTransformFromSe3` is the one built from one of the two scales, and the quaternions built
from the two scales agree to within `1e-9` in each of `w`, `x`, `y`, `z`. -/
theorem small_angle_branches_agree (θ : ℝ) (h0 : 0 < θ) (h1 : θ ≤ 1e-9) :
    |imagFactorSeries θ - imagFactorClosedForm (Libm.mk Real.sqrt Real.sin Real.cos) θ|
      ≤ 1e-9
    ∧ ∀ δ : Fin 6 → ℝ,
        norm (Libm.mk Real.sqrt Real.sin Real.cos) ![δ 0, δ 1, δ 2] = θ →
        ((getTransformFromSe3 (Libm.mk Real.sqrt Real.sin Real.cos) δ).1
            = quaternionOfImagFactor (Libm.mk Real.sqrt Real.sin Real.cos)
                (imagFactorSeries θ) δ
          ∨ (getTransformFromSe3 (Libm.mk Real.sqrt Real.sin Real.cos) δ).1
            = quaternionOfImagFactor (Libm.mk Real.sqrt Real.sin Real.cos)
                (imagFactorClosedForm (Libm.mk Real.sqrt Real.sin Real.cos) θ) δ)
        ∧ |(quaternionOfImagFactor (Libm.mk Real.sqrt Real.sin Real.cos)
              (imagFactorSeries θ) δ).w
            - (quaternionOfImagFactor (Libm.mk Real.sqrt Real.sin Real.cos)
              (imagFactorClosedForm (Libm.mk Real.sqrt Real.sin Real.cos) θ) δ).w| ≤ 1e-9
        ∧ |(quaternionOfImagFactor (Libm.mk Real.sqrt Real.sin Real.cos)
              (imagFactorSeries θ) δ).x
            - (quaternionOfImagFactor (Libm.mk Real.sqrt Real.sin Real.cos)
              (imagFactorClosedForm (Libm.mk Real.sqrt Real.sin Real.cos) θ) δ).x| ≤ 1e-9
        ∧ |(quaternionOfImagFactor (Libm.mk Real.sqrt Real.sin Real.cos)
              (imagFactorSeries θ) δ).y
            - (quaternionOfImagFactor (Libm.mk Real.sqrt Real.sin Real.cos)
              (imagFactorClosedForm (Libm.mk Real.sqrt Real.sin Real.cos) θ) δ).y| ≤ 1e-9
        ∧ |(quaternionOfImagFactor (Libm.mk Real.sqrt Real.sin Real.cos)
              (imagFactorSeries θ) δ).z
            - (quaternionOfImagFactor (Libm.mk Real.sqrt Real.sin Real.cos)
              (imagFactorClosedForm (Libm.mk Real.sqrt Real.sin Real.cos) θ) δ).z| ≤ 1e-9 := by
  have hs := imagFactor_branches_close θ h0 h1
  refine ⟨hs, ?_⟩
  intro δ hθ
  have hθ1 : θ ≤ 1 := by norm_num at h1; linarith
  have hcomp : ∀ i : Fin 3,
      |imagFactorSeries θ * (![δ 0, δ 1, δ 2] : Vector3d ℝ) i
        - imagFactorClosedForm (Libm.mk Real.sqrt Real.sin Real.cos) θ
          * (![δ 0, δ 1, δ 2] : Vector3d ℝ) i| ≤ 1e-9 := by
    intro i
    have hi := abs_le_norm ![δ 0, δ 1, δ 2] i
    rw [hθ] at hi
    rw [← sub_mul, abs_mul]
    calc |imagFactorSeries θ - imagFactorClosedForm (Libm.mk Real.sqrt Real.sin Real.cos) θ|
          * |(![δ 0, δ 1, δ 2] : Vector3d ℝ) i|
        ≤ 1e-9 * 1 :=
          mul_le_mul hs (le_trans hi hθ1) (abs_nonneg _) (by norm_num)
      _ = 1e-9 := mul_one _
  refine ⟨?_, ?_, hcomp 0, hcomp 1, hcomp 2⟩
  · rw [getTransformFromSe3_fst, hθ]
    by_cases hb : θ < 1e-10
    · left; rw [if_pos hb]
    · right; rw [if_neg hb]
  · simp [quaternionOfImagFactor, Quaterniond.ofWXYZ]
    norm_num

/-- C14 at the branch boundary `θ = 1e-10`. -/
theorem small_angle_branches_agree_witness :
    |imagFactorSeries (1e-10 : ℝ)
        - imagFactorClosedForm (Libm.mk Real.sqrt Real.sin Real.cos) 1e-10| ≤ 1e-9 :=
  (small_angle_branches_agree 1e-10 (by norm_num) (by norm_num)).1

/-! ## The increment acting on the transformed point -/

/-- Acting with a product of quaternions against acting twice, for arbitrary quaternions. -/
theorem transformVector_mul_general (Q q : Quaterniond ℝ) (P : Vector3d ℝ) :
    (Q.mul q).transformVector P
      = Q.transformVector (q.transformVector P)
        + (1 - Q.squaredNorm) • (P - q.transformVector P)
        + (1 - q.squaredNorm) • (P - Q.transformVector P) := by
  funext i
  fin_cases i <;>
    simp only [Quaterniond.mul, Quaterniond.ofWXYZ, Quaterniond.transformVector,
      Quaterniond.vec, Quaterniond.squaredNorm, cross, Pi.add_apply, Pi.sub_apply,
      Pi.smul_apply, smul_eq_mul, Matrix.cons_val_zero, Matrix.cons_val_one, Matrix.head_cons,
      Matrix.cons_val_two, Matrix.tail_cons, Fin.zero_eta, Fin.mk_one, Fin.reduceFinMk] <;>
    ring

/-- Unit quaternions act on vectors compatibly with their product. -/
theorem transformVector_mul (Q q : Quaterniond ℝ) (hQ : Q.squaredNorm = 1)
    (hq : q.squaredNorm = 1) (P : Vector3d ℝ) :
    (Q.mul q).transformVector P = Q.transformVector (q.transformVector P) := by
  rw [transformVector_mul_general, hQ, hq]
  simp

/-- A quaternion acts additively on vectors. -/
theorem transformVector_add (Q : Quaterniond ℝ) (u v : Vector3d ℝ) :
    Q.transformVector (u + v) = Q.transformVector u + Q.transformVector v := by
  funext i
  fin_cases i <;>
    simp [Quaterniond.transformVector, Quaterniond.vec, cross] <;> ring

/-- The zero vector has `norm` zero. -/
theorem norm_eq_zero_of_eq_zero (v : Vector3d ℝ) (h : v = 0) :
    norm (Libm.mk Real.sqrt Real.sin Real.cos) v = 0 := by
  subst h
  simp [norm, dot]

/-- C15: for every pose `x = (q, t)` with `q` a unit quaternion, every increment
`delta = (omega, upsilon)` with `‖omega‖ ≥ 1e-10` or `omega = 0`, and every point `p`: with
`(q', t')` the pose written by `Plus` and `(δq, δt)` the result of `getTransformFromSe3`,
`q'·p + t' = δq·(q·p + t) + δt`. -/
theorem Plus_acts_on_transformed_point (x : Fin 7 → ℝ) (δ : Fin 6 → ℝ) (p : Vector3d ℝ)
    (hq : (Quaterniond.map x).squaredNorm = 1)
    (hδ : 1e-10 ≤ norm (Libm.mk Real.sqrt Real.sin Real.cos) ![δ 0, δ 1, δ 2]
      ∨ (![δ 0, δ 1, δ 2] : Vector3d ℝ) = 0) :
    (Quaterniond.map (PoseSE3Parameterization.Plus (Libm.mk Real.sqrt Real.sin Real.cos)
        x δ).2).transformVector p
      + translationMap (PoseSE3Parameterization.Plus (Libm.mk Real.sqrt Real.sin Real.cos)
        x δ).2
    = (getTransformFromSe3 (Libm.mk Real.sqrt Real.sin Real.cos) δ).1.transformVector
        ((Quaterniond.map x).transformVector p + translationMap x)
      + (getTransformFromSe3 (Libm.mk Real.sqrt Real.sin Real.cos) δ).2 := by
  have hQ : (getTransformFromSe3 (Libm.mk Real.sqrt Real.sin Real.cos) δ).1.squaredNorm = 1 := by
    rcases hδ with h | h
    · exact squaredNorm_of_threshold_le δ h
    · exact squaredNorm_of_angle_zero δ (norm_eq_zero_of_eq_zero _ h)
  rw [map_Plus, translationMap_Plus, transformVector_mul _ _ hQ hq, transformVector_add, add_assoc]

/-- C15 at the identity pose, `omega = (1,0,0)` and `p = (1,2,3)`. -/
theorem Plus_acts_on_transformed_point_witness :
    (Quaterniond.map (PoseSE3Parameterization.Plus (Libm.mk Real.sqrt Real.sin Real.cos)
        ![0, 0, 0, 1, 0, 0, 0] ![1, 0, 0, 0, 0, 0]).2).transformVector ![1, 2, 3]
      + translationMap (PoseSE3Parameterization.Plus (Libm.mk Real.sqrt Real.sin Real.cos)
        ![0, 0, 0, 1, 0, 0, 0] ![1, 0, 0, 0, 0, 0]).2
    = (getTransformFromSe3 (Libm.mk Real.sqrt Real.sin Real.cos)
          ![1, 0, 0, 0, 0, 0]).1.transformVector
        ((Quaterniond.map ![0, 0, 0, 1, 0, 0, 0]).transformVector ![1, 2, 3]
          + translationMap ![0, 0, 0, 1, 0, 0, 0])
      + (getTransformFromSe3 (Libm.mk Real.sqrt Real.sin Real.cos) ![1, 0, 0, 0, 0, 0]).2 :=
  Plus_acts_on_transformed_point ![0, 0, 0, 1, 0, 0, 0] ![1, 0, 0, 0, 0, 0] ![1, 2, 3]
    identity_pose_unit
    (Or.inl (by
      have h : norm (Libm.mk Real.sqrt Real.sin Real.cos)
          ![(![1, 0, 0, 0, 0, 0] : Fin 6 → ℝ) 0, (![1, 0, 0, 0, 0, 0] : Fin 6 → ℝ) 1,
            (![1, 0, 0, 0, 0, 0] : Fin 6 → ℝ) 2] = 1 := by
        simpa using norm_axis 1 (by norm_num)
      rw [h]; norm_num))

/-! ## The closed-form branch -/

/-- Double-angle form of the first Rodrigues coefficient. -/
theorem sin_div_eq (θ : ℝ) :
    Real.sin θ / θ = 2 * Real.cos (0.5 * θ) * (Real.sin (0.5 * θ) / θ) := by
  have h := Real.sin_two_mul (0.5 * θ)
  have h2 : 2 * (0.5 * θ) = θ := by ring
  rw [h2] at h
  rw [h]
  ring

/-- Double-angle form of the second Rodrigues coefficient. -/
theorem one_sub_cos_div_eq (θ : ℝ) :
    (1 - Real.cos θ) / θ ^ 2 = 2 * (Real.sin (0.5 * θ) / θ) * (Real.sin (0.5 * θ) / θ) := by
  have h := Real.cos_two_mul (0.5 * θ)
  have h2 : 2 * (0.5 * θ) = θ := by ring
  rw [h2] at h
  have hs := Real.sin_sq_add_cos_sq (0.5 * θ)
  have e : 1 - Real.cos θ = 2 * Real.sin (0.5 * θ) ^ 2 := by rw [h]; linarith
  rw [e]
  ring

/-- C17: for every `omega` with `θ = ‖omega‖ ≥ 1e-10` and every `upsilon`, the quaternion of
`getTransformFromSe3` is `(w = cos(θ/2), xyz = sin(θ/2)/θ · omega)`, has unit norm, and sends
every `v` to the Rodrigues value
`v + (sin θ/θ)·(omega × v) + ((1 − cos θ)/θ²)·(omega × (omega × v))`; the translation is
`(I + (1−cos θ)/θ²·Ω + (θ−sin θ)/θ³·Ω²)·upsilon` with `Ω = skew(omega)`. -/
theorem getTransformFromSe3_closed_form (δ : Fin 6 → ℝ)
    (h : 1e-10 ≤ norm (Libm.mk Real.sqrt Real.sin Real.cos) ![δ 0, δ 1, δ 2]) :
    (getTransformFromSe3 (Libm.mk Real.sqrt Real.sin Real.cos) δ).1
      = Quaterniond.ofWXYZ
          (Real.cos (norm (Libm.mk Real.sqrt Real.sin Real.cos) ![δ 0, δ 1, δ 2] / 2))
          (Real.sin (norm (Libm.mk Real.sqrt Real.sin Real.cos) ![δ 0, δ 1, δ 2] / 2)
            / norm (Libm.mk Real.sqrt Real.sin Real.cos) ![δ 0, δ 1, δ 2] * δ 0)
          (Real.sin (norm (Libm.mk Real.sqrt Real.sin Real.cos) ![δ 0, δ 1, δ 2] / 2)
            / norm (Libm.mk Real.sqrt Real.sin Real.cos) ![δ 0, δ 1, δ 2] * δ 1)
          (Real.sin (norm (Libm.mk Real.sqrt Real.sin Real.cos) ![δ 0, δ 1, δ 2] / 2)
            / norm (Libm.mk Real.sqrt Real.sin Real.cos) ![δ 0, δ 1, δ 2] * δ 2)
    ∧ (getTransformFromSe3 (Libm.mk Real.sqrt Real.sin Real.cos) δ).1.squaredNorm = 1
    ∧ (∀ v : Vector3d ℝ,
        (getTransformFromSe3 (Libm.mk Real.sqrt Real.sin Real.cos) δ).1.transformVector v
          = v
            + (Real.sin (norm (Libm.mk Real.sqrt Real.sin Real.cos) ![δ 0, δ 1, δ 2])
                / norm (Libm.mk Real.sqrt Real.sin Real.cos) ![δ 0, δ 1, δ 2])
              • cross ![δ 0, δ 1, δ 2] v
            + ((1 - Real.cos (norm (Libm.mk Real.sqrt Real.sin Real.cos) ![δ 0, δ 1, δ 2]))
                / norm (Libm.mk Real.sqrt Real.sin Real.cos) ![δ 0, δ 1, δ 2] ^ 2)
              • cross ![δ 0, δ 1, δ 2] (cross ![δ 0, δ 1, δ 2] v))
    ∧ (getTransformFromSe3 (Libm.mk Real.sqrt Real.sin Real.cos) δ).2
        = ((1 : Matrix3d ℝ)
            + ((1 - Real.cos (norm (Libm.mk Real.sqrt Real.sin Real.cos) ![δ 0, δ 1, δ 2]))
                / norm (Libm.mk Real.sqrt Real.sin Real.cos) ![δ 0, δ 1, δ 2] ^ 2)
              • skew ![δ 0, δ 1, δ 2]
            + ((norm (Libm.mk Real.sqrt Real.sin Real.cos) ![δ 0, δ 1, δ 2]
                  - Real.sin (norm (Libm.mk Real.sqrt Real.sin Real.cos) ![δ 0, δ 1, δ 2]))
                / norm (Libm.mk Real.sqrt Real.sin Real.cos) ![δ 0, δ 1, δ 2] ^ 3)
              • (skew ![δ 0, δ 1, δ 2] * skew ![δ 0, δ 1, δ 2])).mulVec ![δ 3, δ 4, δ 5] := by
  have hlt : ¬ (norm (Libm.mk Real.sqrt Real.sin Real.cos) ![δ 0, δ 1, δ 2] < 1e-10) :=
    not_lt.mpr h
  have hq : (getTransformFromSe3 (Libm.mk Real.sqrt Real.sin Real.cos) δ).1
      = Quaterniond.ofWXYZ
          (Real.cos (0.5 * norm (Libm.mk Real.sqrt Real.sin Real.cos) ![δ 0, δ 1, δ 2]))
          (Real.sin (0.5 * norm (Libm.mk Real.sqrt Real.sin Real.cos) ![δ 0, δ 1, δ 2])
            / norm (Libm.mk Real.sqrt Real.sin Real.cos) ![δ 0, δ 1, δ 2] * δ 0)
          (Real.sin (0.5 * norm (Libm.mk Real.sqrt Real.sin Real.cos) ![δ 0, δ 1, δ 2])
            / norm (Libm.mk Real.sqrt Real.sin Real.cos) ![δ 0, δ 1, δ 2] * δ 1)
          (Real.sin (0.5 * norm (Libm.mk Real.sqrt Real.sin Real.cos) ![δ 0, δ 1, δ 2])
            / norm (Libm.mk Real.sqrt Real.sin Real.cos) ![δ 0, δ 1, δ 2] * δ 2) := by
    simp only [getTransformFromSe3, if_neg hlt, Matrix.cons_val_zero, Matrix.cons_val_one,
      Matrix.head_cons, Matrix.cons_val_two, Matrix.tail_cons]
  have hhalf : ∀ t : ℝ, t / 2 = 0.5 * t := by intro t; ring
  refine ⟨?_, squaredNorm_of_threshold_le δ h, ?_, ?_⟩
  · rw [hq, hhalf]
  · intro v
    rw [hq, sin_div_eq, one_sub_cos_div_eq]
    generalize norm (Libm.mk Real.sqrt Real.sin Real.cos) ![δ 0, δ 1, δ 2] = θ
    generalize Real.cos (0.5 * θ) = w
    generalize Real.sin (0.5 * θ) / θ = k
    funext i
    fin_cases i <;>
      simp only [Quaterniond.ofWXYZ, Quaterniond.transformVector,
        Quaterniond.vec, cross, Pi.add_apply, Pi.smul_apply, smul_eq_mul,
        Matrix.cons_val_zero, Matrix.cons_val_one, Matrix.head_cons,
        Matrix.cons_val_two, Matrix.tail_cons, Fin.zero_eta, Fin.mk_one, Fin.reduceFinMk] <;>
      ring
  · simp only [getTransformFromSe3, if_neg hlt]
    rw [pow_two]

/-- C17 at `omega = (1,0,0)`. -/
theorem getTransformFromSe3_closed_form_witness :
    (getTransformFromSe3 (Libm.mk Real.sqrt Real.sin Real.cos)
      ![1, 0, 0, 0, 0, 0]).1.squaredNorm = 1 :=
  (getTransformFromSe3_closed_form ![1, 0, 0, 0, 0, 0]
    (by
      have h : norm (Libm.mk Real.sqrt Real.sin Real.cos)
          ![(![1, 0, 0, 0, 0, 0] : Fin 6 → ℝ) 0, (![1, 0, 0, 0, 0, 0] : Fin 6 → ℝ) 1,
            (![1, 0, 0, 0, 0, 0] : Fin 6 → ℝ) 2] = 1 := by
        simpa using norm_axis 1 (by norm_num)
      rw [h]; norm_num)).2.1

/-! ## Division by zero in the edge cost -/

/-- A difference of points has `norm` zero exactly when the points coincide. -/
theorem norm_sub_eq_zero_iff (a b : Vector3d ℝ) :
    norm (Libm.mk Real.sqrt Real.sin Real.cos) (a - b) = 0 ↔ a = b := by
  constructor
  · intro h
    by_contra hne
    have hpos := dot_self_pos_of_ne a b hne
    have : dot (a - b) (a - b) = 0 := (Real.sqrt_eq_zero (le_of_lt hpos)).mp h
    linarith
  · intro h
    subst h
    simp [norm, dot]

/-- For `A ≠ B`, `nu` has `norm` zero exactly when the point is on the line. -/
theorem norm_nu_eq_zero_iff (p A B : Vector3d ℝ) (hab : A ≠ B) :
    norm (Libm.mk Real.sqrt Real.sin Real.cos) (cross (p - A) (p - B)) = 0
      ↔ ∃ s : ℝ, p = A + s • (B - A) := by
  simp only [norm]
  rw [Real.sqrt_eq_zero (dot_self_nonneg _)]
  constructor
  · intro h0
    by_contra hno
    push_neg at hno
    exact nu_ne_zero_of_off_line _ _ _ hab hno h0
  · rintro ⟨s, hs⟩
    exact nu_zero_of_on_line _ _ _ s hs

/-- When the endpoints coincide `nu` is zero. -/
theorem norm_nu_eq_zero_of_eq (p A : Vector3d ℝ) :
    norm (Libm.mk Real.sqrt Real.sin Real.cos) (cross (p - A) (p - A)) = 0 := by
  have : cross (p - A) (p - A) = 0 := by
    funext i
    fin_cases i <;> simp [cross] <;> ring
  rw [this]
  simp [norm, dot]

/-- C16: in `EdgeAnalyticCostFunction::Evaluate` the residual's divisor `‖A−B‖` is zero
exactly when `A = B`, and the Jacobian's divisors `‖nu‖` and `‖A−B‖` are both nonzero exactly
when `A ≠ B` and `lp` is off the line through `A` and `B`.  With every division guarded, the
residual fails exactly when `A = B` and otherwise is the residual of `Evaluate`; a requested
Jacobian fails exactly when `A = B` or `lp` is on the line and otherwise is the row of
`Evaluate`; and in every case the call returns true. -/
theorem edge_division_by_zero (c : EdgeAnalyticCostFunction ℝ) (parameters J0 : Fin 7 → ℝ)
    (jacobians : Option (Option (Fin 7 → ℝ))) :
    (norm (Libm.mk Real.sqrt Real.sin Real.cos) (c.last_point_a - c.last_point_b) = 0
        ↔ c.last_point_a = c.last_point_b)
    ∧ ((norm (Libm.mk Real.sqrt Real.sin Real.cos)
            (cross (transformedPoint parameters c.curr_point - c.last_point_a)
              (transformedPoint parameters c.curr_point - c.last_point_b)) ≠ 0
          ∧ norm (Libm.mk Real.sqrt Real.sin Real.cos) (c.last_point_a - c.last_point_b) ≠ 0)
        ↔ (c.last_point_a ≠ c.last_point_b
          ∧ ∀ s : ℝ, transformedPoint parameters c.curr_point
              ≠ c.last_point_a + s • (c.last_point_b - c.last_point_a)))
    ∧ ((c.EvaluateGuarded (Libm.mk Real.sqrt Real.sin Real.cos) parameters jacobians).residual
          = none ↔ c.last_point_a = c.last_point_b)
    ∧ (c.last_point_a ≠ c.last_point_b →
        (c.EvaluateGuarded (Libm.mk Real.sqrt Real.sin Real.cos) parameters jacobians).residual
          = some (c.Evaluate (Libm.mk Real.sqrt Real.sin Real.cos) parameters
              jacobians).residual)
    ∧ ((c.EvaluateGuarded (Libm.mk Real.sqrt Real.sin Real.cos) parameters
          (some (some J0))).jacobians = some (some none)
        ↔ (c.last_point_a = c.last_point_b
          ∨ ∃ s : ℝ, transformedPoint parameters c.curr_point
              = c.last_point_a + s • (c.last_point_b - c.last_point_a)))
    ∧ (c.last_point_a ≠ c.last_point_b →
        (∀ s : ℝ, transformedPoint parameters c.curr_point
          ≠ c.last_point_a + s • (c.last_point_b - c.last_point_a)) →
        (c.EvaluateGuarded (Libm.mk Real.sqrt Real.sin Real.cos) parameters
          (some (some J0))).jacobians
          = ((c.Evaluate (Libm.mk Real.sqrt Real.sin Real.cos) parameters
              (some (some J0))).jacobians).map (Option.map some))
    ∧ (c.EvaluateGuarded (Libm.mk Real.sqrt Real.sin Real.cos) parameters jacobians).ret = true
    ∧ (c.Evaluate (Libm.mk Real.sqrt Real.sin Real.cos) parameters jacobians).ret = true := by
  have hde := norm_sub_eq_zero_iff c.last_point_a c.last_point_b
  have hp : (Quaterniond.map parameters).transformVector c.curr_point + translationMap parameters
      = transformedPoint parameters c.curr_point := rfl
  refine ⟨hde, ?_, ?_, ?_, ?_, ?_, rfl, rfl⟩
  · constructor
    · rintro ⟨hnu, hd⟩
      have hab : c.last_point_a ≠ c.last_point_b := fun h => hd (hde.mpr h)
      refine ⟨hab, fun s hs => hnu ((norm_nu_eq_zero_iff _ _ _ hab).mpr ⟨s, hs⟩)⟩
    · rintro ⟨hab, hline⟩
      refine ⟨fun h => ?_, fun h => hab (hde.mp h)⟩
      obtain ⟨s, hs⟩ := (norm_nu_eq_zero_iff _ _ _ hab).mp h
      exact hline s hs
  · simp only [EdgeAnalyticCostFunction.EvaluateGuarded, guardedDiv, Option.map_eq_none']
    rw [← hde]
    by_cases h : norm (Libm.mk Real.sqrt Real.sin Real.cos)
        (c.last_point_a - c.last_point_b) = 0
    · simp [h]
    · simp [h]
  · intro hab
    have h : norm (Libm.mk Real.sqrt Real.sin Real.cos)
        (c.last_point_a - c.last_point_b) ≠ 0 := fun h => hab (hde.mp h)
    simp only [EdgeAnalyticCostFunction.EvaluateGuarded, guardedDiv, if_neg h, Option.map_some',
      EdgeAnalyticCostFunction.Evaluate]
  · simp only [EdgeAnalyticCostFunction.EvaluateGuarded, guardedDiv, hp]
    by_cases hab : c.last_point_a = c.last_point_b
    · have h1 : norm (Libm.mk Real.sqrt Real.sin Real.cos)
          (cross (transformedPoint parameters c.curr_point - c.last_point_a)
            (transformedPoint parameters c.curr_point - c.last_point_b)) = 0 := by
        rw [← hab]
        exact norm_nu_eq_zero_of_eq _ _
      simp only [if_pos h1, Option.none_bind, true_iff]
      exact Or.inl hab
    · have hd : norm (Libm.mk Real.sqrt Real.sin Real.cos)
          (c.last_point_a - c.last_point_b) ≠ 0 := fun h => hab (hde.mp h)
      have hiff := norm_nu_eq_zero_iff (transformedPoint parameters c.curr_point) _ _ hab
      by_cases hnu : norm (Libm.mk Real.sqrt Real.sin Real.cos)
          (cross (transformedPoint parameters c.curr_point - c.last_point_a)
            (transformedPoint parameters c.curr_point - c.last_point_b)) = 0
      · simp only [if_pos hnu, Option.none_bind, true_iff]
        exact Or.inr (hiff.mp hnu)
      · have hno : ¬ ∃ s : ℝ, transformedPoint parameters c.curr_point
            = c.last_point_a + s • (c.last_point_b - c.last_point_a) := fun h => hnu (hiff.mpr h)
        simp [if_neg hnu, if_neg hd, hab, hno]
  · intro hab hline
    have hd : norm (Libm.mk Real.sqrt Real.sin Real.cos)
        (c.last_point_a - c.last_point_b) ≠ 0 := fun h => hab (hde.mp h)
    have hnu : norm (Libm.mk Real.sqrt Real.sin Real.cos)
        (cross (transformedPoint parameters c.curr_point - c.last_point_a)
          (transformedPoint parameters c.curr_point - c.last_point_b)) ≠ 0 := by
      intro h
      obtain ⟨s, hs⟩ := (norm_nu_eq_zero_iff _ _ _ hab).mp h
      exact hline s hs
    simp only [EdgeAnalyticCostFunction.EvaluateGuarded, guardedDiv, hp, if_neg hnu, if_neg hd,
      Option.some_bind, Option.map_some', EdgeAnalyticCostFunction.Evaluate]

/-- C16 at coincident endpoints `A = B = (0,0,0)`: the guarded residual fails and `Evaluate`
returns true. -/
theorem edge_division_by_zero_witness :
    ((EdgeAnalyticCostFunction.mk ![0, 1, 0] ![0, 0, 0] ![0, 0, 0]).EvaluateGuarded
        (Libm.mk Real.sqrt Real.sin Real.cos) ![0, 0, 0, 1, 0, 0, 0] none).residual = none
    ∧ ((EdgeAnalyticCostFunction.mk ![0, 1, 0] ![0, 0, 0] ![0, 0, 0]).Evaluate
        (Libm.mk Real.sqrt Real.sin Real.cos) ![0, 0, 0, 1, 0, 0, 0] none).ret = true :=
  ⟨(edge_division_by_zero (EdgeAnalyticCostFunction.mk ![0, 1, 0] ![0, 0, 0] ![0, 0, 0])
      ![0, 0, 0, 1, 0, 0, 0] 0 none).2.2.1.mpr rfl,
   (edge_division_by_zero (EdgeAnalyticCostFunction.mk ![0, 1, 0] ![0, 0, 0] ![0, 0, 0])
      ![0, 0, 0, 1, 0, 0, 0] 0 none).2.2.2.2.2.2.2⟩

end Floam
